import Mathlib

/-!
Verification of the paginated IGDB fetch pipeline
(`src/testing-api/main.py`: `Pipeline.api_fetch`, `Data.save_to_json`).

Query strings are modelled as lists of characters, Python dicts as ordered
association lists (insertion order preserved, value overwritten in place on
duplicate keys, exactly like CPython dicts), and the `while not reached_end`
pagination loop as a fuel-indexed recursion whose fuel only cuts off runs
that the Python loop would continue past that many iterations.
-/

set_option maxRecDepth 40000

deriving instance DecidableEq for Except

namespace Igdb

abbrev Chars := List Char
abbrev QDict := List (Chars × Chars)

/-- Python ASCII whitespace, as recognised by `str.strip()` / `str.split()`. -/
def isPySpace (c : Char) : Bool :=
  c = ' ' || c = '\t' || c = '\n' || c = '\r' || c = '\x0b' || c = '\x0c'

/-- `str.lower()` applied characterwise (ASCII letters, as `Char.toLower`). -/
def pyLower (l : Chars) : Chars := l.map Char.toLower

/-- Core of `str.split(";")`: returns the first segment and the list of the
remaining segments.  `splitSemiCore l = (h, t)` means `l.split(";") = h :: t`
in Python. -/
def splitSemiCore : Chars → Chars × List Chars
  | [] => ([], [])
  | c :: cs =>
    let r := splitSemiCore cs
    if c = ';' then ([], r.1 :: r.2) else (c :: r.1, r.2)

/-- `s.split(";")[:-1]` on an arbitrary string: all segments except the
last. -/
def rawSegs (l : Chars) : List Chars :=
  ((splitSemiCore l).1 :: (splitSemiCore l).2).dropLast

/-- `query.lower().split(";")[:-1]`: the clause segments the parser examines
(source line 181).  Note the unconditional drop of the final segment. -/
def pySegs (q : Chars) : List Chars := rawSegs (pyLower q)

/-- `str.strip()`: remove leading and trailing Python whitespace. -/
def pyStrip (l : Chars) : Chars :=
  ((l.dropWhile isPySpace).reverse.dropWhile isPySpace).reverse

/-- `str.split(maxsplit=1)`: split on whitespace runs at most once.
Returns `[]` for all-whitespace input, `[tok]` when there is no second
token, `[tok, rest]` otherwise (`rest` keeps its internal and trailing
whitespace, exactly as in Python). -/
def pySplitMax1 (l : Chars) : List Chars :=
  let l1 := l.dropWhile isPySpace
  if l1.isEmpty then []
  else
    let tok := l1.takeWhile (fun c => !isPySpace c)
    let rest := (l1.dropWhile (fun c => !isPySpace c)).dropWhile isPySpace
    if rest.isEmpty then [tok] else [tok, rest]

/-- One clause of the dict comprehension on source line 181:
`sub_seg = seg.strip().split(maxsplit=1)`, then the pair
`(sub_seg[0].strip(), sub_seg[1].strip())`.  `none` models the `IndexError`
raised when the clause has no value (or is empty). -/
def parseClause (seg : Chars) : Option (Chars × Chars) :=
  match pySplitMax1 (pyStrip seg) with
  | [k, v] => some (pyStrip k, pyStrip v)
  | _ => none

/-- CPython dict lookup on an insertion-ordered association list. -/
def dictGet (m : QDict) (k : Chars) : Option Chars :=
  match m with
  | [] => none
  | p :: ps => if p.1 = k then some p.2 else dictGet ps k

/-- CPython dict assignment `m[k] = v`: overwrite in place if the key is
present (keeping its original position), else append at the end. -/
def dictInsert (m : QDict) (k : Chars) (v : Chars) : QDict :=
  match m with
  | [] => [(k, v)]
  | p :: ps => if p.1 = k then (k, v) :: ps else p :: dictInsert ps k v

/-- The errors `api_fetch`'s `try` block can raise while interpreting the
query (both are caught by the blanket `except`, which logs and returns
`None`).  `malformedQuery` is the `IndexError` from an unparseable clause;
`valueError` is the `ValueError` from `int(query_properties["limit"])`. -/
inductive QueryError where
  | malformedQuery
  | valueError
deriving DecidableEq, Repr

/-- One step of the clause-building dict comprehension. -/
def parseStep (acc : Except QueryError QDict) (seg : Chars) :
    Except QueryError QDict :=
  match acc with
  | .error e => .error e
  | .ok m =>
    match parseClause seg with
    | some kv => .ok (dictInsert m kv.1 kv.2)
    | none => .error QueryError.malformedQuery

/-- Source line 181: `{sub_seg[0].strip(): sub_seg[1].strip() for sub_seg in
[seg.strip().split(maxsplit=1) for seg in query.lower().split(";")[:-1]]}`. -/
def parseQuery (q : Chars) : Except QueryError QDict :=
  (pySegs q).foldl parseStep (.ok [])

/-- Value of one decimal digit character. -/
def digitVal (c : Char) : Option Nat :=
  if '0' ≤ c ∧ c ≤ '9' then some (c.toNat - 48) else none

/-- Accumulate decimal digits; `none` on a non-digit. -/
def digitsValAux : Nat → Chars → Option Nat
  | acc, [] => some acc
  | acc, c :: cs =>
    match digitVal c with
    | some d => digitsValAux (10 * acc + d) cs
    | none => none

/-- Value of a nonempty all-digit string. -/
def digitsVal : Chars → Option Nat
  | [] => none
  | l => digitsValAux 0 l

/-- Python `int(s)` on a decimal string: strip whitespace, optional sign,
digits; `none` models the `ValueError` on anything else. -/
def pyInt (s : Chars) : Option Int :=
  match pyStrip s with
  | '-' :: ds => (digitsVal ds).map (fun n => -(n : Int))
  | '+' :: ds => (digitsVal ds).map (fun n => (n : Int))
  | ds => (digitsVal ds).map (fun n => (n : Int))

def limitKw : Chars := ['l', 'i', 'm', 'i', 't']
def offsetKw : Chars := ['o', 'f', 'f', 's', 'e', 't']

/-- Python `str(n)` for a natural number. -/
def natToChars (n : Nat) : Chars := Nat.toDigits 10 n

/-- Python `str(i)` for an integer. -/
def intToChars (i : Int) : Chars :=
  if i < 0 then '-' :: natToChars i.natAbs else natToChars i.toNat

/-- Source lines 183-186: `query_limit = int(query_properties["limit"])` if
the (lowercased) key `limit` is present, else `query_limit = None`. -/
def queryLimitOf (props : QDict) : Except QueryError (Option Int) :=
  match dictGet props limitKw with
  | some v =>
    match pyInt v with
    | some n => .ok (some n)
    | none => .error QueryError.valueError
  | none => .ok none

/-- `ROW_INTERVAL = 500  # Max rows per request is 500` (source line 182). -/
def ROW_INTERVAL : Int := 500

/-- Source lines 193-196: this page's requested limit.  The `l ≠ 0` conjunct
is Python's truthiness test `if query_limit and ...`. -/
def pageLimit (ql : Option Int) (offset : Int) : Int :=
  match ql with
  | some l => if l ≠ 0 ∧ offset + ROW_INTERVAL ≥ l then l - offset else ROW_INTERVAL
  | none => ROW_INTERVAL

/-- Source lines 193-197: `paged_query_properties` after this iteration's
in-place updates of `limit` and `offset`. -/
def pagedProps (ql : Option Int) (offset : Int) (props : QDict) : QDict :=
  dictInsert (dictInsert props limitKw (intToChars (pageLimit ql offset)))
    offsetKw (intToChars offset)

/-- Source line 198: `" ".join(f"{key} {value};" for ...)` over dict items in
insertion order. -/
def clauseChars (p : Chars × Chars) : Chars := p.1 ++ ' ' :: (p.2 ++ [';'])

def joinSp : List Chars → Chars
  | [] => []
  | [x] => x
  | x :: xs => x ++ ' ' :: joinSp xs

def serializeDict (m : QDict) : Chars := joinSp (m.map clauseChars)

/-- The clause segment `"<keyword> <value>"` (without the closing `';'`). -/
def clauseSeg (p : Chars × Chars) : Chars := p.1 ++ ' ' :: p.2

/-- The segments obtained by splitting a serialized dict on `';'` and
dropping the trailing empty segment: the first clause verbatim, later
clauses with the separating space attached. -/
def segsOfDict (m : QDict) : List Chars :=
  match m with
  | [] => []
  | p :: rest => clauseSeg p :: rest.map (fun q => ' ' :: clauseSeg q)

/-- Build a CPython dict by inserting key-value pairs in order. -/
def buildDict (l : List (Chars × Chars)) : QDict :=
  l.foldl (fun d p => dictInsert d p.1 p.2) []

def headNotSpace (l : Chars) : Bool :=
  match l.head? with
  | some c => !isPySpace c
  | none => true

def lastNotSpace (l : Chars) : Bool :=
  match l.getLast? with
  | some c => !isPySpace c
  | none => true

/-- Invariant satisfied by every key-value pair the parser produces:
nonempty lowercase-fixed components without `';'`, the key without any
whitespace, the value whitespace-stripped at both ends. -/
def cleanPair (p : Chars × Chars) : Prop :=
  p.1 ≠ [] ∧ (∀ c ∈ p.1, isPySpace c = false ∧ c ≠ ';' ∧ Char.toLower c = c) ∧
    p.2 ≠ [] ∧ (∀ c ∈ p.2, c ≠ ';' ∧ Char.toLower c = c) ∧
    headNotSpace p.2 = true ∧ lastNotSpace p.2 = true

/-- A well-formed raw clause: nonempty keyword without whitespace or `';'`,
nonempty value without `';'` and without surrounding whitespace (both may
use arbitrary letter case). -/
def rawCleanPair (p : Chars × Chars) : Prop :=
  p.1 ≠ [] ∧ (∀ c ∈ p.1, isPySpace c = false ∧ c ≠ ';') ∧
    p.2 ≠ [] ∧ (∀ c ∈ p.2, c ≠ ';') ∧
    headNotSpace p.2 = true ∧ lastNotSpace p.2 = true

instance (p : Chars × Chars) : Decidable (cleanPair p) := by
  unfold cleanPair
  infer_instance

instance (p : Chars × Chars) : Decidable (rawCleanPair p) := by
  unfold rawCleanPair
  infer_instance

/-- One page request as issued by the loop.  `queryStr` is the serialized
paged query actually sent on the wire; `limitReq` and `offsetReq` are ghost
copies of the limit and offset values serialized into it. -/
structure PageReq where
  limitReq : Int
  offsetReq : Int
  queryStr : Chars
deriving DecidableEq, Repr

/-- The paged request built on source lines 193-198. -/
def pageReqAt (ql : Option Int) (offset : Int) (props : QDict) : PageReq :=
  ⟨pageLimit ql offset, offset, serializeDict (pagedProps ql offset props)⟩

/-- The external HTTP query executor (`requests.post(...).json()` followed by
`pd.DataFrame(response)`).  It receives the paged request; the `Nat` argument
is the index of the network call, modelling that each call is a distinct
event.  `Except.error` models a raised network / JSON error. -/
abbrev Executor (Row : Type) := Nat → PageReq → Except Unit (List Row)

/-- Outcome of the pagination loop.  `reqs` is the list of page requests
issued so far (the per-page `logging.info` events).  `fuelOut` means the
Python loop would still be running after the given number of iterations. -/
inductive FetchOut (Row : Type) where
  | success (reqs : List PageReq) (rows : List Row)
  | execError (reqs : List PageReq)
  | fuelOut (reqs : List PageReq)
deriving DecidableEq, Repr

def FetchOut.reqs : FetchOut Row → List PageReq
  | .success rs _ => rs
  | .execError rs => rs
  | .fuelOut rs => rs

/-- Prepend already-issued requests and already-accumulated rows to a loop
outcome (used to normalise the loop's write-only accumulators). -/
def FetchOut.frame (reqs0 : List PageReq) (acc0 : List Row) :
    FetchOut Row → FetchOut Row
  | .success rs rows => .success (reqs0 ++ rs) (acc0 ++ rows)
  | .execError rs => .execError (reqs0 ++ rs)
  | .fuelOut rs => .fuelOut (reqs0 ++ rs)

/-- Source lines 188-208, the `while not reached_end` loop.  State:
`k` = index of the next network call, `offset`, `props` =
`paged_query_properties` (mutated in place across iterations), `reqs` =
requests issued so far, `acc` = `all_data`.  On a raised executor error the
accumulated rows are abandoned (the exception propagates out of the loop). -/
def fetchLoop (exec : Executor Row) (ql : Option Int) :
    Nat → Nat → Int → QDict → List PageReq → List Row → FetchOut Row
  | 0, _, _, _, reqs, _ => .fuelOut reqs
  | fuel + 1, k, offset, props, reqs, acc =>
    let req := pageReqAt ql offset props
    match exec k req with
    | .error _ => .execError (reqs ++ [req])
    | .ok chunk =>
      if (chunk.length : Int) < ROW_INTERVAL then
        .success (reqs ++ [req]) (acc ++ chunk)
      else
        fetchLoop exec ql fuel (k + 1) (offset + ROW_INTERVAL)
          (pagedProps ql offset props) (reqs ++ [req]) (acc ++ chunk)

/-- `api_fetch` from a parsed clause mapping: read the total limit (lines
183-186), then run the loop from `offset = 0` with an empty accumulator. -/
def fetchFromProps (exec : Executor Row) (fuel : Nat) (props : QDict) :
    Except QueryError (FetchOut Row) :=
  match queryLimitOf props with
  | .error e => .error e
  | .ok ql => .ok (fetchLoop exec ql fuel 0 0 props [] [])

/-- What the caller of `api_fetch` sees, given a parsed query: the
accumulated rows on success, `None` when any exception was raised (the
blanket `except` on lines 211-212 logs and falls through to `None`). -/
def apiFetchProps (exec : Executor Row) (fuel : Nat) (props : QDict) :
    Option (List Row) :=
  match fetchFromProps exec fuel props with
  | .ok (.success _ rows) => some rows
  | _ => none

/-- `Pipeline.api_fetch` end to end: parse the query string, then fetch. -/
def apiFetch (exec : Executor Row) (fuel : Nat) (q : Chars) :
    Option (List Row) :=
  match parseQuery q with
  | .error _ => none
  | .ok props => apiFetchProps exec fuel props

/-! ### Concrete executors and queries used to instantiate the claims -/

/-- Executor returning exactly the requested number of rows on every page. -/
def fullExec : Executor Nat := fun _ req => .ok (List.range req.limitReq.toNat)

/-- Executor returning no rows at all. -/
def emptyExec : Executor Nat := fun _ _ => .ok []

/-- Executor succeeding with a full page on the first call and raising a
network error on every later call. -/
def failSecondExec : Executor Nat :=
  fun k _ => if k = 0 then .ok (List.range 500) else .error ()

/-- Parsed query `fields name; limit 500;`. -/
def limit500Props : QDict :=
  [("fields".toList, "name".toList), (limitKw, "500".toList)]

/-- Parsed query `fields name; limit 650;`. -/
def limit650Props : QDict :=
  [("fields".toList, "name".toList), (limitKw, "650".toList)]

/-- Parsed query `fields name;` (no total limit). -/
def noLimitProps : QDict := [("fields".toList, "name".toList)]

/-- Mocked executor responses of sizes `[500, 500, 500, 300]`, with globally
distinct row values. -/
def demoBatch (k : Nat) : List Nat :=
  (List.range (if k < 3 then 500 else 300)).map (fun i => 500 * k + i)

def demoExec : Executor Nat := fun k _ => .ok (demoBatch k)

/-- Parsed query `limit 5000;` (a large total limit). -/
def limit5000Props : QDict := [(limitKw, "5000".toList)]

/-- The outcome of fetching `fields name; limit 500;` against `fullExec`:
two requests (the second with limit 0) and 500 rows. -/
def c1out : FetchOut Nat :=
  .success [pageReqAt (some 500) 0 limit500Props,
    pageReqAt (some 500) 500 (pagedProps (some 500) 0 limit500Props)]
    (List.range 500)

/-- Mocked responses of sizes `[500, 100, 100, ...]`: the first short batch
appears on call 1, long before a total limit of 5000 is consumed. -/
def shortBatch (k : Nat) : List Nat := List.range (if k = 0 then 500 else 100)

def shortExec : Executor Nat := fun k _ => .ok (shortBatch k)

/-! ### Deduplicating persistence (`Data.save_to_json`, lines 71-80) -/

/-- A record as stored in the JSON file: every record carries an `id`. -/
structure IgdbRecord (α : Type) where
  id : Nat
  payload : α
deriving DecidableEq, Repr

/-- `pandas.DataFrame.drop_duplicates(subset=["id"])`: keep the first
occurrence of each id.  `seen` accumulates the ids already kept. -/
def dropDuplicatesById (seen : List Nat) :
    List (IgdbRecord α) → List (IgdbRecord α)
  | [] => []
  | r :: rs =>
    if r.id ∈ seen then dropDuplicatesById seen rs
    else r :: dropDuplicatesById (r.id :: seen) rs

/-- `save_to_json` with `append=True, exclude_duplicates=True` (lines 71-77):
`pd.concat([existing_data, self.data]).drop_duplicates(subset=["id"])`. -/
def mergeDedupById (existing new : List (IgdbRecord α)) : List (IgdbRecord α) :=
  dropDuplicatesById [] (existing ++ new)

/-! ### Character-level lemmas -/

theorem char_toNat_ofNat_valid {n : Nat} (h : n.isValidChar) :
    (Char.ofNat n).toNat = n := by
  rw [Char.ofNat, dif_pos h]
  rfl

theorem toLower_toNat_of_upper {c : Char} (h1 : 65 ≤ c.toNat) (h2 : c.toNat ≤ 90) :
    (Char.toLower c).toNat = c.toNat + 32 := by
  rw [Char.toLower, if_pos ⟨h1, h2⟩]
  exact char_toNat_ofNat_valid (Or.inl (by omega))

theorem toLower_eq_self_of_not_upper {c : Char}
    (h : ¬ (65 ≤ c.toNat ∧ c.toNat ≤ 90)) : Char.toLower c = c := by
  rw [Char.toLower, if_neg h]

theorem toLower_toLower (c : Char) : c.toLower.toLower = c.toLower := by
  by_cases h : 65 ≤ c.toNat ∧ c.toNat ≤ 90
  · have hl := toLower_toNat_of_upper h.1 h.2
    exact toLower_eq_self_of_not_upper (by omega)
  · rw [toLower_eq_self_of_not_upper h, toLower_eq_self_of_not_upper h]

theorem char_ne_of_toNat_ne {c d : Char} (h : c.toNat ≠ d.toNat) : c ≠ d :=
  fun he => h (congrArg Char.toNat he)

theorem toNat_of_isPySpace {c : Char} (h : isPySpace c = true) :
    c.toNat = 32 ∨ c.toNat = 9 ∨ c.toNat = 10 ∨ c.toNat = 13 ∨
      c.toNat = 11 ∨ c.toNat = 12 := by
  simp only [isPySpace, Bool.or_eq_true, decide_eq_true_eq] at h
  rcases h with ((((h | h) | h) | h) | h) | h <;> subst h <;> simp

theorem isPySpace_eq_false_of_toNat {c : Char} (h1 : 33 ≤ c.toNat) :
    isPySpace c = false := by
  cases hb : isPySpace c
  · rfl
  · have := toNat_of_isPySpace hb
    omega

theorem isPySpace_toLower (c : Char) : isPySpace c.toLower = isPySpace c := by
  by_cases h : 65 ≤ c.toNat ∧ c.toNat ≤ 90
  · have h1 := toLower_toNat_of_upper h.1 h.2
    rw [isPySpace_eq_false_of_toNat (by omega),
      isPySpace_eq_false_of_toNat (by omega)]
  · rw [toLower_eq_self_of_not_upper h]

theorem toLower_ne_semi {c : Char} (h : c ≠ ';') : c.toLower ≠ ';' := by
  by_cases hu : 65 ≤ c.toNat ∧ c.toNat ≤ 90
  · have h1 := toLower_toNat_of_upper hu.1 hu.2
    refine char_ne_of_toNat_ne ?_
    have hs : (';' : Char).toNat = 59 := rfl
    omega
  · rw [toLower_eq_self_of_not_upper hu]
    exact h

theorem eq_semi_of_toLower_eq_semi {c : Char} (h : Char.toLower c = ';') :
    c = ';' := by
  by_contra hne
  exact toLower_ne_semi hne h

theorem toLower_semi : Char.toLower ';' = ';' := by decide

theorem toLower_space : Char.toLower ' ' = ' ' := by decide

/-! ### Lemmas about `pyLower` -/

theorem pyLower_fixed_of_mem (l : Chars) (c : Char) (h : c ∈ pyLower l) :
    Char.toLower c = c := by
  simp only [pyLower, List.mem_map] at h
  obtain ⟨c0, _, rfl⟩ := h
  exact toLower_toLower c0

theorem pyLower_eq_self (l : Chars) (h : ∀ c ∈ l, Char.toLower c = c) :
    pyLower l = l := by
  simp only [pyLower]
  exact (List.map_congr_left h).trans (List.map_id l)

theorem semi_not_mem_pyLower (l : Chars) (h : ';' ∉ l) : ';' ∉ pyLower l := by
  intro hc
  simp only [pyLower, List.mem_map] at hc
  obtain ⟨c0, hc0, he⟩ := hc
  exact h ((eq_semi_of_toLower_eq_semi he) ▸ hc0)

theorem pyLower_append (a b : Chars) : pyLower (a ++ b) = pyLower a ++ pyLower b :=
  List.map_append _ a b

theorem pyLower_semi_cons (l : Chars) : pyLower (';' :: l) = ';' :: pyLower l := by
  simp [pyLower, toLower_semi]

/-! ### Lemmas about `splitSemiCore` and `rawSegs` -/

theorem splitSemiCore_semi (l : Chars) :
    splitSemiCore (';' :: l) =
      ([], (splitSemiCore l).1 :: (splitSemiCore l).2) := by
  simp [splitSemiCore]

theorem splitSemiCore_cons_ne (c : Char) (l : Chars) (h : c ≠ ';') :
    splitSemiCore (c :: l) =
      (c :: (splitSemiCore l).1, (splitSemiCore l).2) := by
  simp [splitSemiCore, h]

theorem splitSemiCore_no_semi (l : Chars) (h : ';' ∉ l) :
    splitSemiCore l = (l, []) := by
  induction l with
  | nil => rfl
  | cons c cs ih =>
    have hc : c ≠ ';' := fun he => h (he ▸ List.mem_cons_self c cs)
    rw [splitSemiCore_cons_ne c cs hc, ih (fun hm => h (List.mem_cons_of_mem c hm))]

theorem splitSemiCore_append_no_semi (a b : Chars) (h : ';' ∉ a) :
    splitSemiCore (a ++ b) =
      (a ++ (splitSemiCore b).1, (splitSemiCore b).2) := by
  induction a with
  | nil => simp
  | cons c cs ih =>
    have hc : c ≠ ';' := fun he => h (he ▸ List.mem_cons_self c cs)
    rw [List.cons_append, splitSemiCore_cons_ne c _ hc,
      ih (fun hm => h (List.mem_cons_of_mem c hm)), List.cons_append]

theorem mem_of_mem_splitSemiCore (l : Chars) :
    ∀ seg, (seg = (splitSemiCore l).1 ∨ seg ∈ (splitSemiCore l).2) →
    ∀ c ∈ seg, c ∈ l := by
  induction l with
  | nil =>
    intro seg h c hc
    rcases h with h | h
    · rw [show (splitSemiCore []).1 = [] from rfl] at h
      subst h
      cases hc
    · rw [show (splitSemiCore []).2 = [] from rfl] at h
      cases h
  | cons d ds ih =>
    intro seg h c hc
    by_cases hd : d = ';'
    · subst hd
      rw [splitSemiCore_semi] at h
      rcases h with h | h
      · subst h; cases hc
      · rcases List.mem_cons.mp h with h | h
        · exact List.mem_cons_of_mem _ (ih seg (Or.inl h) c hc)
        · exact List.mem_cons_of_mem _ (ih seg (Or.inr h) c hc)
    · rw [splitSemiCore_cons_ne d ds hd] at h
      rcases h with h | h
      · subst h
        rcases List.mem_cons.mp hc with hc | hc
        · exact hc ▸ List.mem_cons_self d ds
        · exact List.mem_cons_of_mem d (ih _ (Or.inl rfl) c hc)
      · exact List.mem_cons_of_mem d (ih seg (Or.inr h) c hc)

theorem no_semi_of_mem_splitSemiCore (l : Chars) :
    ∀ seg, (seg = (splitSemiCore l).1 ∨ seg ∈ (splitSemiCore l).2) →
    ';' ∉ seg := by
  induction l with
  | nil =>
    intro seg h
    rcases h with h | h
    · rw [show (splitSemiCore []).1 = [] from rfl] at h
      subst h
      exact List.not_mem_nil _
    · rw [show (splitSemiCore []).2 = [] from rfl] at h
      cases h
  | cons d ds ih =>
    intro seg h
    by_cases hd : d = ';'
    · subst hd
      rw [splitSemiCore_semi] at h
      rcases h with h | h
      · subst h; exact List.not_mem_nil _
      · rcases List.mem_cons.mp h with h | h
        · exact ih seg (Or.inl h)
        · exact ih seg (Or.inr h)
    · rw [splitSemiCore_cons_ne d ds hd] at h
      rcases h with h | h
      · subst h
        intro hc
        rcases List.mem_cons.mp hc with hc | hc
        · exact hd hc.symm
        · exact ih _ (Or.inl rfl) hc
      · exact ih seg (Or.inr h)

theorem mem_of_mem_dropLast {α : Type} (l : List α) (a : α)
    (h : a ∈ l.dropLast) : a ∈ l := by
  induction l with
  | nil => cases h
  | cons x xs ih =>
    cases xs with
    | nil => cases h
    | cons y ys =>
      rw [List.dropLast_cons₂] at h
      rcases List.mem_cons.mp h with h | h
      · exact h ▸ List.mem_cons_self x _
      · exact List.mem_cons_of_mem x (ih h)

theorem rawSegs_props (l : Chars) (seg : Chars) (h : seg ∈ rawSegs l) :
    ';' ∉ seg ∧ ∀ c ∈ seg, c ∈ l := by
  have h' := mem_of_mem_dropLast _ _ h
  rcases List.mem_cons.mp h' with h' | h'
  · exact ⟨no_semi_of_mem_splitSemiCore l seg (Or.inl h'),
      mem_of_mem_splitSemiCore l seg (Or.inl h')⟩
  · exact ⟨no_semi_of_mem_splitSemiCore l seg (Or.inr h'),
      mem_of_mem_splitSemiCore l seg (Or.inr h')⟩

/-! ### Lemmas about `pyStrip` and `pySplitMax1` -/

theorem mem_of_head?_some {α : Type} {l : List α} {a : α}
    (h : l.head? = some a) : a ∈ l := by
  cases l with
  | nil => cases h
  | cons x xs =>
    simp only [List.head?_cons, Option.some_inj] at h
    exact h ▸ List.mem_cons_self x xs

theorem mem_of_getLast?_some {α : Type} {l : List α} {a : α}
    (h : l.getLast? = some a) : a ∈ l := by
  rw [← List.head?_reverse] at h
  exact List.mem_reverse.mp (mem_of_head?_some h)

theorem headNotSpace_spec {l : Chars} {c : Char} (h : headNotSpace l = true)
    (hc : l.head? = some c) : isPySpace c = false := by
  unfold headNotSpace at h
  rw [hc] at h
  simpa using h

theorem headNotSpace_of (l : Chars)
    (h : ∀ c, l.head? = some c → isPySpace c = false) : headNotSpace l = true := by
  unfold headNotSpace
  cases hl : l.head? with
  | none => rfl
  | some c => simp [h c hl]

theorem lastNotSpace_spec {l : Chars} {c : Char} (h : lastNotSpace l = true)
    (hc : l.getLast? = some c) : isPySpace c = false := by
  unfold lastNotSpace at h
  rw [hc] at h
  simpa using h

theorem lastNotSpace_of (l : Chars)
    (h : ∀ c, l.getLast? = some c → isPySpace c = false) :
    lastNotSpace l = true := by
  unfold lastNotSpace
  cases hl : l.getLast? with
  | none => rfl
  | some c => simp [h c hl]

theorem dropWhile_head_not (p : Char → Bool) (l : Chars) :
    ∀ c, (l.dropWhile p).head? = some c → p c = false := by
  induction l with
  | nil => intro c h; cases h
  | cons a t ih =>
    intro c h
    by_cases ha : p a
    · rw [List.dropWhile_cons_of_pos ha] at h
      exact ih c h
    · rw [List.dropWhile_cons_of_neg ha] at h
      simp only [List.head?_cons, Option.some_inj] at h
      subst h
      simpa using ha

theorem dropWhile_eq_self_of_head (p : Char → Bool) (l : Chars)
    (h : ∀ c, l.head? = some c → p c = false) : l.dropWhile p = l := by
  cases l with
  | nil => rfl
  | cons a t => exact List.dropWhile_cons_of_neg (by simp [h a rfl])

theorem mem_pyStrip (l : Chars) (c : Char) (h : c ∈ pyStrip l) : c ∈ l := by
  simp only [pyStrip, List.mem_reverse] at h
  have h1 := (List.dropWhile_sublist (l := (l.dropWhile isPySpace).reverse)
    isPySpace).subset h
  rw [List.mem_reverse] at h1
  exact (List.dropWhile_sublist isPySpace).subset h1

theorem pyStrip_getLast_not (l : Chars) :
    ∀ c, (pyStrip l).getLast? = some c → isPySpace c = false := by
  intro c h
  rw [pyStrip, List.getLast?_reverse] at h
  exact dropWhile_head_not _ _ c h

theorem exists_dropWhile_eq_append (p : Char → Bool) (l : Chars) :
    ∃ t, l = t ++ l.dropWhile p := by
  induction l with
  | nil => exact ⟨[], rfl⟩
  | cons a xs ih =>
    by_cases ha : p a
    · obtain ⟨t, ht⟩ := ih
      refine ⟨a :: t, ?_⟩
      rw [List.dropWhile_cons_of_pos ha, List.cons_append]
      exact congrArg (a :: ·) ht
    · refine ⟨[], ?_⟩
      rw [List.dropWhile_cons_of_neg ha, List.nil_append]

theorem pyStrip_head_not (l : Chars) :
    ∀ c, (pyStrip l).head? = some c → isPySpace c = false := by
  intro c h
  have hdef : pyStrip l =
      ((l.dropWhile isPySpace).reverse.dropWhile isPySpace).reverse := rfl
  obtain ⟨t, ht⟩ :=
    exists_dropWhile_eq_append isPySpace (l.dropWhile isPySpace).reverse
  have hx2 : l.dropWhile isPySpace = pyStrip l ++ t.reverse := by
    have h2 := congrArg List.reverse ht
    rw [List.reverse_reverse, List.reverse_append] at h2
    rw [hdef]
    exact h2
  have hne : pyStrip l ≠ [] := by
    intro hr
    rw [hr] at h
    cases h
  have h3 : (l.dropWhile isPySpace).head? = some c := by
    rw [hx2, List.head?_append_of_ne_nil _ hne]
    exact h
  exact dropWhile_head_not isPySpace l c h3

theorem pyStrip_eq_self (l : Chars) (h1 : headNotSpace l = true)
    (h2 : lastNotSpace l = true) : pyStrip l = l := by
  have hd : l.dropWhile isPySpace = l :=
    dropWhile_eq_self_of_head _ _ (fun c hc => headNotSpace_spec h1 hc)
  rw [pyStrip, hd]
  have hr : l.reverse.dropWhile isPySpace = l.reverse := by
    refine dropWhile_eq_self_of_head _ _ (fun c hc => ?_)
    rw [List.head?_reverse] at hc
    exact lastNotSpace_spec h2 hc
  rw [hr, List.reverse_reverse]

theorem pyStrip_of_all_not (l : Chars) (h : ∀ c ∈ l, isPySpace c = false) :
    pyStrip l = l := by
  refine pyStrip_eq_self l (headNotSpace_of l fun c hc => h c (mem_of_head?_some hc))
    (lastNotSpace_of l fun c hc => h c (mem_of_getLast?_some hc))

theorem pyStrip_ne_nil_of_head (l : Chars) (c : Char) (hh : l.head? = some c)
    (hc : isPySpace c = false) : pyStrip l ≠ [] := by
  have hd : l.dropWhile isPySpace = l :=
    dropWhile_eq_self_of_head _ _ (fun d hd => by
      rw [hh] at hd
      injection hd with he
      exact he ▸ hc)
  rw [pyStrip, hd]
  intro hcon
  have hnil : l.reverse.dropWhile isPySpace = [] := by
    have := congrArg List.reverse hcon
    simpa using this
  rw [List.dropWhile_eq_nil_iff] at hnil
  have hcl : c ∈ l := mem_of_head?_some hh
  have := hnil c (List.mem_reverse.mpr hcl)
  rw [hc] at this
  cases this

theorem pyStrip_cons_space (seg : Chars) : pyStrip (' ' :: seg) = pyStrip seg := by
  rw [pyStrip, pyStrip, List.dropWhile_cons_of_pos (by decide)]

theorem takeWhile_append_boundary (p : Char → Bool) (k : Chars) (x : Char)
    (r : Chars) (hk : ∀ c ∈ k, p c = true) (hx : p x = false) :
    (k ++ x :: r).takeWhile p = k := by
  induction k with
  | nil =>
    rw [List.nil_append]
    exact List.takeWhile_cons_of_neg (by simp [hx])
  | cons a t ih =>
    rw [List.cons_append,
      List.takeWhile_cons_of_pos (hk a (List.mem_cons_self a t)),
      ih (fun c hc => hk c (List.mem_cons_of_mem a hc))]

theorem dropWhile_append_boundary (p : Char → Bool) (k : Chars) (x : Char)
    (r : Chars) (hk : ∀ c ∈ k, p c = true) (hx : p x = false) :
    (k ++ x :: r).dropWhile p = x :: r := by
  induction k with
  | nil =>
    rw [List.nil_append]
    exact List.dropWhile_cons_of_neg (by simp [hx])
  | cons a t ih =>
    rw [List.cons_append,
      List.dropWhile_cons_of_pos (hk a (List.mem_cons_self a t)),
      ih (fun c hc => hk c (List.mem_cons_of_mem a hc))]

theorem pySplitMax1_clause (k v : Chars) (hk1 : k ≠ [])
    (hk2 : ∀ c ∈ k, isPySpace c = false) (hv1 : v ≠ [])
    (hv2 : headNotSpace v = true) :
    pySplitMax1 (k ++ ' ' :: v) = [k, v] := by
  obtain ⟨a, t, rfl⟩ : ∃ a t, k = a :: t := by
    cases k with
    | nil => exact absurd rfl hk1
    | cons a t => exact ⟨a, t, rfl⟩
  have hdrop : ((a :: t) ++ ' ' :: v).dropWhile isPySpace =
      a :: (t ++ ' ' :: v) := by
    rw [List.cons_append]
    exact List.dropWhile_cons_of_neg (by simp [hk2 a (List.mem_cons_self a t)])
  have htok : ((a :: t) ++ ' ' :: v).takeWhile (fun c => !isPySpace c) =
      a :: t :=
    takeWhile_append_boundary _ _ _ _
      (fun c hc => by simp [hk2 c hc]) (by decide)
  have hafter : ((a :: t) ++ ' ' :: v).dropWhile (fun c => !isPySpace c) =
      ' ' :: v :=
    dropWhile_append_boundary _ _ _ _
      (fun c hc => by simp [hk2 c hc]) (by decide)
  have hrest : (' ' :: v).dropWhile isPySpace = v := by
    rw [List.dropWhile_cons_of_pos (by decide)]
    exact dropWhile_eq_self_of_head _ _ (fun c hc => headNotSpace_spec hv2 hc)
  simp only [pySplitMax1, hdrop, ← List.cons_append, htok, hafter, hrest,
    List.isEmpty_cons, Bool.false_eq_true, if_false]
  have hvE : List.isEmpty v = false := by simp [List.isEmpty_iff, hv1]
  rw [hvE]
  simp

theorem pySplitMax1_spec (l k v : Chars) (h : pySplitMax1 l = [k, v]) :
    k ≠ [] ∧ (∀ c ∈ k, isPySpace c = false) ∧ v ≠ [] ∧
      headNotSpace v = true ∧ (∀ c ∈ k, c ∈ l) ∧ (∀ c ∈ v, c ∈ l) := by
  simp only [pySplitMax1] at h
  split at h
  · cases h
  · rename_i hne
    split at h
    · simp at h
    · rename_i hrne
      simp only [List.cons.injEq, and_true] at h
      obtain ⟨hk, hv⟩ := h
      refine ⟨?_, ?_, ?_, ?_, ?_, ?_⟩
      · rw [← hk]
        cases hl1 : l.dropWhile isPySpace with
        | nil => rw [hl1] at hne; simp at hne
        | cons c rest =>
          have hc : isPySpace c = false :=
            dropWhile_head_not isPySpace l c (by rw [hl1]; rfl)
          rw [List.takeWhile_cons_of_pos (by simp [hc])]
          simp
      · intro c hc
        rw [← hk] at hc
        have := List.mem_takeWhile_imp hc
        simpa using this
      · rw [← hv]
        intro hcon
        rw [hcon] at hrne
        simp at hrne
      · refine headNotSpace_of v fun c hc => ?_
        rw [← hv] at hc
        exact dropWhile_head_not isPySpace _ c hc
      · intro c hc
        rw [← hk] at hc
        exact (List.dropWhile_sublist isPySpace).subset
          ((List.takeWhile_sublist _).subset hc)
      · intro c hc
        rw [← hv] at hc
        exact (List.dropWhile_sublist isPySpace).subset
          ((List.dropWhile_sublist _).subset
            ((List.dropWhile_sublist isPySpace).subset hc))

/-! ### Lemmas about `parseClause` -/

theorem parseClause_clause (k v : Chars) (hk1 : k ≠ [])
    (hk2 : ∀ c ∈ k, isPySpace c = false) (hv1 : v ≠ [])
    (hv2 : headNotSpace v = true) (hv3 : lastNotSpace v = true) :
    parseClause (clauseSeg (k, v)) = some (k, v) := by
  have hstrip : pyStrip (k ++ ' ' :: v) = k ++ ' ' :: v := by
    refine pyStrip_eq_self _ ?_ ?_
    · refine headNotSpace_of _ fun c hc => ?_
      rw [List.head?_append_of_ne_nil k hk1] at hc
      exact hk2 c (mem_of_head?_some hc)
    · refine lastNotSpace_of _ fun c hc => ?_
      rw [show k ++ ' ' :: v = (k ++ [' ']) ++ v by simp] at hc
      rw [List.getLast?_append_of_ne_nil _ hv1] at hc
      exact lastNotSpace_spec hv3 hc
  show parseClause (k ++ ' ' :: v) = some (k, v)
  unfold parseClause
  rw [hstrip, pySplitMax1_clause k v hk1 hk2 hv1 hv2]
  show some (pyStrip k, pyStrip v) = some (k, v)
  rw [pyStrip_of_all_not k hk2, pyStrip_eq_self v hv2 hv3]

theorem parseClause_space (seg : Chars) :
    parseClause (' ' :: seg) = parseClause seg := by
  unfold parseClause
  rw [pyStrip_cons_space]

/-! ### Lemmas about `dictInsert` and `buildDict` -/

theorem mem_dictInsert (m : QDict) (k v : Chars) (p : Chars × Chars)
    (h : p ∈ dictInsert m k v) : p ∈ m ∨ p = (k, v) := by
  induction m with
  | nil =>
    simp only [dictInsert, List.mem_singleton] at h
    exact Or.inr h
  | cons q qs ih =>
    unfold dictInsert at h
    by_cases hq : q.1 = k
    · rw [if_pos hq] at h
      rcases List.mem_cons.mp h with h | h
      · exact Or.inr h
      · exact Or.inl (List.mem_cons_of_mem q h)
    · rw [if_neg hq] at h
      rcases List.mem_cons.mp h with h | h
      · exact Or.inl (h ▸ List.mem_cons_self q qs)
      · rcases ih h with h | h
        · exact Or.inl (List.mem_cons_of_mem q h)
        · exact Or.inr h

theorem mem_keys_dictInsert (m : QDict) (k v : Chars) (x : Chars)
    (h : x ∈ (dictInsert m k v).map Prod.fst) :
    x ∈ m.map Prod.fst ∨ x = k := by
  simp only [List.mem_map] at h
  obtain ⟨p, hp, rfl⟩ := h
  rcases mem_dictInsert m k v p hp with h | h
  · exact Or.inl (List.mem_map.mpr ⟨p, h, rfl⟩)
  · rw [h]
    exact Or.inr rfl

theorem nodup_keys_dictInsert (m : QDict) (k v : Chars)
    (h : (m.map Prod.fst).Nodup) :
    ((dictInsert m k v).map Prod.fst).Nodup := by
  induction m with
  | nil => simp [dictInsert]
  | cons q qs ih =>
    unfold dictInsert
    by_cases hq : q.1 = k
    · rw [if_pos hq]
      simp only [List.map_cons, List.nodup_cons] at h ⊢
      exact ⟨hq ▸ h.1, h.2⟩
    · rw [if_neg hq]
      simp only [List.map_cons, List.nodup_cons] at h ⊢
      refine ⟨fun hc => ?_, ih h.2⟩
      rcases mem_keys_dictInsert qs k v q.1 hc with hc | hc
      · exact h.1 hc
      · exact hq hc

theorem dictInsert_append_of_not_mem (m : QDict) (k v : Chars)
    (h : k ∉ m.map Prod.fst) : dictInsert m k v = m ++ [(k, v)] := by
  induction m with
  | nil => rfl
  | cons q qs ih =>
    simp only [List.map_cons, List.mem_cons, not_or] at h
    unfold dictInsert
    rw [if_neg (fun he => h.1 he.symm), ih h.2, List.cons_append]

theorem foldl_dictInsert_append (m : List (Chars × Chars)) :
    ∀ acc : QDict, (∀ x ∈ m.map Prod.fst, x ∉ acc.map Prod.fst) →
    (m.map Prod.fst).Nodup →
    m.foldl (fun d p => dictInsert d p.1 p.2) acc = acc ++ m := by
  induction m with
  | nil => intro acc _ _; simp
  | cons p ps ih =>
    intro acc hdis hnd
    simp only [List.map_cons, List.nodup_cons] at hnd
    simp only [List.foldl_cons]
    rw [dictInsert_append_of_not_mem acc p.1 p.2
      (hdis p.1 (by simp))]
    rw [ih (acc ++ [(p.1, p.2)]) ?_ hnd.2]
    · simp
    · intro x hx
      simp only [List.map_append, List.mem_append, List.map_cons,
        List.map_nil, List.mem_singleton, not_or]
      refine ⟨hdis x (by simp [hx]), fun he => ?_⟩
      exact hnd.1 (he ▸ hx)

theorem buildDict_eq_self (m : QDict) (h : (m.map Prod.fst).Nodup) :
    buildDict m = m := by
  unfold buildDict
  rw [foldl_dictInsert_append m [] (by simp) h]
  simp

/-! ### Lemmas about the parse fold -/

theorem foldl_parseStep_error (segs : List Chars) (e : QueryError) :
    segs.foldl parseStep (.error e) = .error e := by
  induction segs with
  | nil => rfl
  | cons s rest ih =>
    simp only [List.foldl_cons]
    exact ih

theorem foldl_parseStep_malformed (segs : List Chars) :
    ∀ m : QDict, (∃ seg ∈ segs, parseClause seg = none) →
    segs.foldl parseStep (.ok m) = .error QueryError.malformedQuery := by
  induction segs with
  | nil =>
    intro m h
    obtain ⟨seg, hs, _⟩ := h
    cases hs
  | cons s rest ih =>
    intro m h
    simp only [List.foldl_cons]
    cases hps : parseClause s with
    | none =>
      have hstep : parseStep (.ok m) s = .error QueryError.malformedQuery := by
        simp [parseStep, hps]
      rw [hstep]
      exact foldl_parseStep_error rest _
    | some kv =>
      have hstep : parseStep (.ok m) s = .ok (dictInsert m kv.1 kv.2) := by
        simp [parseStep, hps]
      rw [hstep]
      obtain ⟨seg, hs, hn⟩ := h
      rcases List.mem_cons.mp hs with rfl | hs
      · rw [hps] at hn
        cases hn
      · exact ih _ ⟨seg, hs, hn⟩

theorem foldl_parseStep_of_parse (f : (Chars × Chars) → Chars)
    (ps : List (Chars × Chars)) (hp : ∀ p ∈ ps, parseClause (f p) = some p) :
    ∀ acc : QDict, (ps.map f).foldl parseStep (.ok acc) =
      .ok (ps.foldl (fun d p => dictInsert d p.1 p.2) acc) := by
  induction ps with
  | nil => intro acc; rfl
  | cons p rest ih =>
    intro acc
    simp only [List.map_cons, List.foldl_cons]
    have hstep : parseStep (.ok acc) (f p) = .ok (dictInsert acc p.1 p.2) := by
      simp [parseStep, hp p (List.mem_cons_self p rest)]
    rw [hstep]
    exact ih (fun q hq => hp q (List.mem_cons_of_mem p hq)) (dictInsert acc p.1 p.2)

theorem parseClause_clean (seg : Chars) (hs : ';' ∉ seg)
    (hf : ∀ c ∈ seg, Char.toLower c = c) (k v : Chars)
    (h : parseClause seg = some (k, v)) : cleanPair (k, v) := by
  have h' := h
  unfold parseClause at h'
  cases hsp : pySplitMax1 (pyStrip seg) with
  | nil => rw [hsp] at h'; cases h'
  | cons a l2 =>
    cases l2 with
    | nil => rw [hsp] at h'; cases h'
    | cons b l3 =>
      cases l3 with
      | cons c l4 => rw [hsp] at h'; cases h'
      | nil =>
        rw [hsp] at h'
        simp only [Option.some.injEq, Prod.mk.injEq] at h'
        obtain ⟨hka, hvb⟩ := h'
        obtain ⟨ha1, ha2, hb1, hb2, hamem, hbmem⟩ :=
          pySplitMax1_spec (pyStrip seg) a b hsp
        have hka' : k = a := by rw [← hka, pyStrip_of_all_not a ha2]
        subst hka'
        subst hvb
        have hbsub : ∀ c ∈ pyStrip b, c ∈ seg := fun c hc =>
          mem_pyStrip seg c (hbmem c (mem_pyStrip b c hc))
        have hasub : ∀ c ∈ k, c ∈ seg := fun c hc =>
          mem_pyStrip seg c (hamem c hc)
        refine ⟨ha1, ?_, ?_, ?_, ?_, ?_⟩
        · intro c hc
          exact ⟨ha2 c hc, fun he => hs (he ▸ hasub c hc),
            hf c (hasub c hc)⟩
        · obtain ⟨c0, bt, hbe⟩ : ∃ c0 bt, b = c0 :: bt := by
            cases b with
            | nil => exact absurd rfl hb1
            | cons c0 bt => exact ⟨c0, bt, rfl⟩
          refine pyStrip_ne_nil_of_head b c0 (by rw [hbe]; rfl) ?_
          exact headNotSpace_spec hb2 (by rw [hbe]; rfl)
        · intro c hc
          exact ⟨fun he => hs (he ▸ hbsub c hc), hf c (hbsub c hc)⟩
        · exact headNotSpace_of _ (fun c hc => pyStrip_head_not b c hc)
        · exact lastNotSpace_of _ (fun c hc => pyStrip_getLast_not b c hc)

theorem foldl_parseStep_inv (segs : List Chars)
    (hsegs : ∀ seg ∈ segs, ';' ∉ seg ∧ ∀ c ∈ seg, Char.toLower c = c) :
    ∀ m0 : QDict, (∀ p ∈ m0, cleanPair p) → (m0.map Prod.fst).Nodup →
    ∀ m, segs.foldl parseStep (.ok m0) = .ok m →
    (∀ p ∈ m, cleanPair p) ∧ (m.map Prod.fst).Nodup := by
  induction segs with
  | nil =>
    intro m0 h1 h2 m hm
    injection hm with hm
    subst hm
    exact ⟨h1, h2⟩
  | cons s rest ih =>
    intro m0 h1 h2 m hm
    simp only [List.foldl_cons] at hm
    cases hps : parseClause s with
    | none =>
      rw [show parseStep (.ok m0) s = .error QueryError.malformedQuery by
        simp [parseStep, hps]] at hm
      rw [foldl_parseStep_error] at hm
      cases hm
    | some kv =>
      rw [show parseStep (.ok m0) s = .ok (dictInsert m0 kv.1 kv.2) by
        simp [parseStep, hps]] at hm
      obtain ⟨hseg1, hseg2⟩ := hsegs s (List.mem_cons_self s rest)
      have hkv : cleanPair kv := by
        obtain ⟨k, v⟩ := kv
        exact parseClause_clean s hseg1 hseg2 k v hps
      refine ih (fun seg hseg => hsegs seg (List.mem_cons_of_mem s hseg))
        (dictInsert m0 kv.1 kv.2) ?_ (nodup_keys_dictInsert m0 kv.1 kv.2 h2) m hm
      intro p hp
      rcases mem_dictInsert m0 kv.1 kv.2 p hp with hp | hp
      · exact h1 p hp
      · rw [hp]
        exact hkv

theorem parseQuery_ok_inv (q : Chars) (m : QDict) (h : parseQuery q = .ok m) :
    (∀ p ∈ m, cleanPair p) ∧ (m.map Prod.fst).Nodup := by
  refine foldl_parseStep_inv (pySegs q) ?_ [] (by simp) (by simp) m h
  intro seg hseg
  have hprops := rawSegs_props (pyLower q) seg hseg
  exact ⟨hprops.1, fun c hc => pyLower_fixed_of_mem _ c (hprops.2 c hc)⟩

/-! ### Lemmas about serialization (`" ".join(f"{key} {value};" ...)`) -/

theorem semi_not_clauseSeg (p : Chars × Chars) (h1 : ';' ∉ p.1)
    (h2 : ';' ∉ p.2) : ';' ∉ clauseSeg p := by
  intro hc
  rcases List.mem_append.mp hc with hc | hc
  · exact h1 hc
  · rcases List.mem_cons.mp hc with hc | hc
    · cases hc
    · exact h2 hc

theorem clauseChars_eq (p : Chars × Chars) :
    clauseChars p = clauseSeg p ++ [';'] := by
  simp [clauseChars, clauseSeg]

theorem joinSp_cons_cons (x y : Chars) (ys : List Chars) :
    joinSp (x :: y :: ys) = x ++ ' ' :: joinSp (y :: ys) := rfl

theorem mem_joinSp (L : List Chars) (c : Char) (h : c ∈ joinSp L) :
    c = ' ' ∨ ∃ l ∈ L, c ∈ l := by
  induction L with
  | nil => cases h
  | cons x xs ih =>
    cases xs with
    | nil => exact Or.inr ⟨x, by simp, by simpa [joinSp] using h⟩
    | cons y ys =>
      rw [joinSp_cons_cons] at h
      rcases List.mem_append.mp h with h | h
      · exact Or.inr ⟨x, by simp, h⟩
      · rcases List.mem_cons.mp h with h | h
        · exact Or.inl h
        · rcases ih h with h | ⟨l, hl, hcl⟩
          · exact Or.inl h
          · exact Or.inr ⟨l, List.mem_cons_of_mem x hl, hcl⟩

theorem mem_serializeDict (m : QDict) (c : Char) (h : c ∈ serializeDict m) :
    c = ' ' ∨ c = ';' ∨ ∃ p ∈ m, c ∈ p.1 ∨ c ∈ p.2 := by
  rcases mem_joinSp _ c h with h | ⟨l, hl, hcl⟩
  · exact Or.inl h
  · obtain ⟨p, hp, rfl⟩ := List.mem_map.mp hl
    rw [clauseChars_eq] at hcl
    rcases List.mem_append.mp hcl with hcl | hcl
    · rcases List.mem_append.mp hcl with hcl | hcl
      · exact Or.inr (Or.inr ⟨p, hp, Or.inl hcl⟩)
      · rcases List.mem_cons.mp hcl with hcl | hcl
        · exact Or.inl hcl
        · exact Or.inr (Or.inr ⟨p, hp, Or.inr hcl⟩)
    · rcases List.mem_cons.mp hcl with hcl | hcl
      · exact Or.inr (Or.inl hcl)
      · cases hcl

theorem splitSemiCore_joinSp_clauses (rest : List (Chars × Chars)) :
    ∀ p : Chars × Chars, ';' ∉ p.1 ∧ ';' ∉ p.2 →
    (∀ q ∈ rest, ';' ∉ q.1 ∧ ';' ∉ q.2) →
    splitSemiCore (joinSp ((p :: rest).map clauseChars)) =
      (clauseSeg p, (rest.map (fun q => ' ' :: clauseSeg q)) ++ [[]]) := by
  induction rest with
  | nil =>
    intro p hp _
    have hj : joinSp ([p].map clauseChars) = clauseSeg p ++ ';' :: [] := by
      simp [joinSp, clauseChars_eq]
    rw [hj, splitSemiCore_append_no_semi _ _ (semi_not_clauseSeg p hp.1 hp.2),
      splitSemiCore_semi]
    simp [splitSemiCore]
  | cons q more ih =>
    intro p hp hrest
    have hj : joinSp ((p :: q :: more).map clauseChars) =
        clauseSeg p ++ ';' :: (' ' :: joinSp ((q :: more).map clauseChars)) := by
      simp only [List.map_cons, joinSp_cons_cons, clauseChars_eq,
        List.append_assoc, List.cons_append, List.nil_append]
    rw [hj, splitSemiCore_append_no_semi _ _ (semi_not_clauseSeg p hp.1 hp.2),
      splitSemiCore_semi, splitSemiCore_cons_ne ' ' _ (by decide)]
    rw [ih q (hrest q (List.mem_cons_self q more))
      (fun r hr => hrest r (List.mem_cons_of_mem q hr))]
    simp

theorem rawSegs_serializeDict (m : QDict)
    (hm : ∀ p ∈ m, ';' ∉ p.1 ∧ ';' ∉ p.2) :
    rawSegs (serializeDict m) = segsOfDict m := by
  cases m with
  | nil => rfl
  | cons p rest =>
    unfold rawSegs serializeDict
    rw [splitSemiCore_joinSp_clauses rest p (hm p (List.mem_cons_self p rest))
      (fun q hq => hm q (List.mem_cons_of_mem p hq))]
    rw [show clauseSeg p :: ((rest.map fun q => ' ' :: clauseSeg q) ++ [[]]) =
      (clauseSeg p :: (rest.map fun q => ' ' :: clauseSeg q)) ++ [[]] by simp]
    rw [List.dropLast_concat]
    rfl

theorem splitSemiCore_flatten_clauses (cs : List (Chars × Chars)) :
    ∀ p : Chars × Chars, ';' ∉ p.1 ∧ ';' ∉ p.2 →
    (∀ q ∈ cs, ';' ∉ q.1 ∧ ';' ∉ q.2) →
    splitSemiCore (((p :: cs).map clauseChars).flatten) =
      (clauseSeg p, (cs.map clauseSeg) ++ [[]]) := by
  induction cs with
  | nil =>
    intro p hp _
    have hj : ([p].map clauseChars).flatten = clauseSeg p ++ ';' :: [] := by
      simp [clauseChars_eq]
    rw [hj, splitSemiCore_append_no_semi _ _ (semi_not_clauseSeg p hp.1 hp.2),
      splitSemiCore_semi]
    simp [splitSemiCore]
  | cons q more ih =>
    intro p hp hrest
    have hj : (((p :: q :: more).map clauseChars)).flatten =
        clauseSeg p ++ ';' :: (((q :: more).map clauseChars)).flatten := by
      simp only [List.map_cons, List.flatten_cons, clauseChars_eq,
        List.append_assoc, List.cons_append, List.nil_append]
    rw [hj, splitSemiCore_append_no_semi _ _ (semi_not_clauseSeg p hp.1 hp.2),
      splitSemiCore_semi]
    rw [ih q (hrest q (List.mem_cons_self q more))
      (fun r hr => hrest r (List.mem_cons_of_mem q hr))]
    simp

theorem rawSegs_flatten_clauses (cs : List (Chars × Chars))
    (h : ∀ p ∈ cs, ';' ∉ p.1 ∧ ';' ∉ p.2) :
    rawSegs ((cs.map clauseChars).flatten) = cs.map clauseSeg := by
  cases cs with
  | nil => rfl
  | cons p rest =>
    unfold rawSegs
    rw [splitSemiCore_flatten_clauses rest p (h p (List.mem_cons_self p rest))
      (fun q hq => h q (List.mem_cons_of_mem p hq))]
    rw [show clauseSeg p :: ((rest.map clauseSeg) ++ [[]]) =
      (clauseSeg p :: rest.map clauseSeg) ++ [[]] by simp]
    rw [List.dropLast_concat]
    rfl

theorem pyLower_clauseChars (p : Chars × Chars) :
    pyLower (clauseChars p) = clauseChars (pyLower p.1, pyLower p.2) := by
  simp [clauseChars, pyLower, toLower_space, toLower_semi]

/-- Reparsing the string serialized from a clean, duplicate-free clause
mapping recovers the mapping exactly. -/
theorem parseQuery_serializeDict (m : QDict) (hc : ∀ p ∈ m, cleanPair p)
    (hn : (m.map Prod.fst).Nodup) : parseQuery (serializeDict m) = .ok m := by
  have hsemi : ∀ p ∈ m, ';' ∉ p.1 ∧ ';' ∉ p.2 := by
    intro p hp
    obtain ⟨_, hk, _, hv, _, _⟩ := hc p hp
    exact ⟨fun hmem => (hk ';' hmem).2.1 rfl, fun hmem => (hv ';' hmem).1 rfl⟩
  have hfix : pyLower (serializeDict m) = serializeDict m := by
    refine pyLower_eq_self _ fun c hcm => ?_
    rcases mem_serializeDict m c hcm with rfl | rfl | ⟨p, hp, hcp⟩
    · exact toLower_space
    · exact toLower_semi
    · obtain ⟨_, hk, _, hv, _, _⟩ := hc p hp
      rcases hcp with hcp | hcp
      · exact (hk c hcp).2.2
      · exact (hv c hcp).2
  show (pySegs (serializeDict m)).foldl parseStep (.ok []) = .ok m
  unfold pySegs
  rw [hfix, rawSegs_serializeDict m hsemi]
  cases m with
  | nil => rfl
  | cons p rest =>
    show (clauseSeg p :: rest.map (fun q => ' ' :: clauseSeg q)).foldl
      parseStep (.ok []) = .ok (p :: rest)
    simp only [List.foldl_cons]
    obtain ⟨hp1, hp2, hp3, hp4, hp5, hp6⟩ := hc p (List.mem_cons_self p rest)
    have hpc : parseClause (clauseSeg p) = some p := by
      have := parseClause_clause p.1 p.2 hp1 (fun c hcc => (hp2 c hcc).1)
        hp3 hp5 hp6
      exact this
    have hstep : parseStep (.ok []) (clauseSeg p) =
        .ok (dictInsert [] p.1 p.2) := by
      simp [parseStep, hpc]
    rw [hstep]
    rw [foldl_parseStep_of_parse (fun q => ' ' :: clauseSeg q) rest ?_
      (dictInsert [] p.1 p.2)]
    · have hb : buildDict (p :: rest) = p :: rest := buildDict_eq_self _ hn
      unfold buildDict at hb
      simp only [List.foldl_cons] at hb
      exact congrArg Except.ok hb
    · intro q hq
      rw [parseClause_space]
      obtain ⟨hq1, hq2, hq3, hq4, hq5, hq6⟩ := hc q (List.mem_cons_of_mem p hq)
      have := parseClause_clause q.1 q.2 hq1 (fun c hcc => (hq2 c hcc).1)
        hq3 hq5 hq6
      exact this

theorem pySplitMax1_single (s : Chars) (hne : s ≠ [])
    (hns : ∀ c ∈ s, isPySpace c = false) : pySplitMax1 s = [s] := by
  have hdrop : s.dropWhile isPySpace = s :=
    dropWhile_eq_self_of_head _ _ (fun c hc => hns c (mem_of_head?_some hc))
  have htake : s.takeWhile (fun c => !isPySpace c) = s :=
    List.takeWhile_eq_self_iff.mpr (fun c hc => by simp [hns c hc])
  have hdrop2 : s.dropWhile (fun c => !isPySpace c) = [] :=
    List.dropWhile_eq_nil_iff.mpr (fun c hc => by simp [hns c hc])
  have hie : s.isEmpty = false := by simp [List.isEmpty_iff, hne]
  simp [pySplitMax1, hdrop, htake, hdrop2, hie]

theorem parseClause_none_of_single (seg : Chars) (hne : pyStrip seg ≠ [])
    (hns : ∀ c ∈ pyStrip seg, isPySpace c = false) : parseClause seg = none := by
  unfold parseClause
  rw [pySplitMax1_single (pyStrip seg) hne hns]

theorem splitSemiCore_trailing (b : Chars) (hb : ';' ∉ b) :
    ∀ a : Chars, ∃ f g, splitSemiCore (a ++ ';' :: b) = (f, g ++ [b]) ∧
      splitSemiCore (a ++ [';']) = (f, g ++ [[]]) := by
  intro a
  induction a with
  | nil =>
    refine ⟨[], [], ?_, ?_⟩
    · rw [List.nil_append, splitSemiCore_semi, splitSemiCore_no_semi b hb]
      rfl
    · rw [List.nil_append, splitSemiCore_semi]
      rfl
  | cons c cs ih =>
    obtain ⟨f, g, h1, h2⟩ := ih
    by_cases hc : c = ';'
    · subst hc
      refine ⟨[], f :: g, ?_, ?_⟩
      · rw [List.cons_append, splitSemiCore_semi, h1]
        simp
      · rw [List.cons_append, splitSemiCore_semi, h2]
        simp
    · refine ⟨c :: f, g, ?_, ?_⟩
      · rw [List.cons_append, splitSemiCore_cons_ne c _ hc, h1]
      · rw [List.cons_append, splitSemiCore_cons_ne c _ hc, h2]

theorem rawSegs_trailing (a b : Chars) (hb : ';' ∉ b) :
    rawSegs (a ++ ';' :: b) = rawSegs (a ++ [';']) := by
  obtain ⟨f, g, h1, h2⟩ := splitSemiCore_trailing b hb a
  unfold rawSegs
  rw [h1, h2]
  rw [show f :: (g ++ [b]) = (f :: g) ++ [b] from by simp,
    show f :: (g ++ [[]]) = (f :: g) ++ [[]] from by simp,
    List.dropLast_concat, List.dropLast_concat]

/-! ### Lemmas about the pagination loop -/

theorem frame_frame (x : FetchOut Row) (r1 r2 : List PageReq)
    (a1 a2 : List Row) :
    (x.frame r2 a2).frame r1 a1 = x.frame (r1 ++ r2) (a1 ++ a2) := by
  cases x <;> simp [FetchOut.frame]

theorem frame_reqs (x : FetchOut Row) (r : List PageReq) (a : List Row) :
    (x.frame r a).reqs = r ++ x.reqs := by
  cases x <;> simp [FetchOut.frame, FetchOut.reqs]

/-- The `reqs` and `acc` arguments of `fetchLoop` are write-only: the loop
appends to them without reading them. -/
theorem fetchLoop_frame (exec : Executor Row) (ql : Option Int) :
    ∀ (fuel k : Nat) (offset : Int) (props : QDict) (reqs : List PageReq)
      (acc : List Row),
    fetchLoop exec ql fuel k offset props reqs acc =
      (fetchLoop exec ql fuel k offset props [] []).frame reqs acc := by
  intro fuel
  induction fuel with
  | zero => intro k off props reqs acc; simp [fetchLoop, FetchOut.frame]
  | succ fuel ih =>
    intro k off props reqs acc
    cases hx : exec k (pageReqAt ql off props) with
    | error e => simp [fetchLoop, hx, FetchOut.frame]
    | ok chunk =>
      by_cases hlen : (chunk.length : Int) < ROW_INTERVAL
      · simp [fetchLoop, hx, if_pos hlen, FetchOut.frame]
      · simp only [fetchLoop, hx, if_neg hlen, List.nil_append]
        rw [ih _ _ _ (reqs ++ [pageReqAt ql off props]) (acc ++ chunk),
          ih _ _ _ [pageReqAt ql off props] chunk, frame_frame]

/-- The `i`-th page request issued from state `offset` carries offset
`offset + ROW_INTERVAL * i` and the limit computed by `pageLimit` at that
offset (lines 193-197): the offset cursor advances by exactly `ROW_INTERVAL`
per page. -/
theorem fetchLoop_req_spec (exec : Executor Row) (ql : Option Int) :
    ∀ (fuel k : Nat) (offset : Int) (props : QDict) (i : Nat) (r : PageReq),
    ((fetchLoop exec ql fuel k offset props [] []).reqs)[i]? = some r →
    r.offsetReq = offset + ROW_INTERVAL * i ∧
      r.limitReq = pageLimit ql (offset + ROW_INTERVAL * i) := by
  intro fuel
  induction fuel with
  | zero => intro k off props i r h; simp [fetchLoop, FetchOut.reqs] at h
  | succ fuel ih =>
    intro k off props i r h
    cases hx : exec k (pageReqAt ql off props) with
    | error e =>
      simp only [fetchLoop, hx, FetchOut.reqs, List.nil_append] at h
      match i, h with
      | 0, h =>
        simp only [List.getElem?_cons_zero, Option.some_inj] at h
        subst h
        simp [pageReqAt]
      | i + 1, h => simp at h
    | ok chunk =>
      by_cases hlen : (chunk.length : Int) < ROW_INTERVAL
      · simp only [fetchLoop, hx, if_pos hlen, FetchOut.reqs, List.nil_append] at h
        match i, h with
        | 0, h =>
          simp only [List.getElem?_cons_zero, Option.some_inj] at h
          subst h
          simp [pageReqAt]
        | i + 1, h => simp at h
      · simp only [fetchLoop, hx, if_neg hlen, List.nil_append] at h
        rw [fetchLoop_frame, frame_reqs] at h
        match i, h with
        | 0, h =>
          simp only [List.singleton_append, List.getElem?_cons_zero,
            Option.some_inj] at h
          subst h
          simp [pageReqAt]
        | i + 1, h =>
          simp only [List.singleton_append, List.getElem?_cons_succ] at h
          have := ih (k + 1) (off + ROW_INTERVAL) (pagedProps ql off props) i r h
          constructor
          · rw [this.1]; push_cast; ring
          · rw [this.2]; congr 1; push_cast; ring

theorem range_succ_map_shift {β : Type} (f : Nat → β) (n : Nat) :
    (List.range (n + 1)).map f = f 0 :: (List.range n).map (fun i => f (i + 1)) := by
  rw [List.range_succ_eq_map, List.map_cons, List.map_map]
  rfl

/-- Characterisation of a run against an executor that always succeeds,
returning batch `B k` on the `k`-th call: if the batches for the first `j`
calls (starting at call `s`) are not short and the `j`-th is short, the loop
terminates at that first short batch, returning the ordered concatenation of
the `j + 1` batches, with the `i`-th request carrying offset
`offset + ROW_INTERVAL * i` and the limit computed at that offset. -/
theorem fetchLoop_all_ok (exec : Executor Row) (ql : Option Int)
    (B : Nat → List Row) (hB : ∀ k req, exec k req = .ok (B k)) :
    ∀ (j s fuel : Nat) (offset : Int) (props : QDict),
    (∀ i, i < j → ROW_INTERVAL ≤ ((B (s + i)).length : Int)) →
    (((B (s + j)).length : Int) < ROW_INTERVAL) →
    j < fuel →
    ∃ R, fetchLoop exec ql fuel s offset props [] [] =
        .success R (((List.range (j + 1)).map (fun i => B (s + i))).flatten) ∧
      R.map (fun r => r.offsetReq) =
        (List.range (j + 1)).map (fun i : Nat => offset + ROW_INTERVAL * (i : Int)) ∧
      R.map (fun r => r.limitReq) =
        (List.range (j + 1)).map
          (fun i : Nat => pageLimit ql (offset + ROW_INTERVAL * (i : Int))) := by
  intro j
  induction j with
  | zero =>
    intro s fuel offset props _ hshort hfuel
    cases fuel with
    | zero => omega
    | succ f =>
      rw [Nat.add_zero] at hshort
      simp only [fetchLoop, hB s (pageReqAt ql offset props), if_pos hshort,
        List.nil_append]
      refine ⟨[pageReqAt ql offset props], ?_, ?_, ?_⟩
      · rw [show List.range (0 + 1) = [0] from rfl]
        simp
      · rw [show List.range (0 + 1) = [0] from rfl]
        simp [pageReqAt]
      · rw [show List.range (0 + 1) = [0] from rfl]
        simp [pageReqAt]
  | succ j ih =>
    intro s fuel offset props hfull hshort hfuel
    cases fuel with
    | zero => omega
    | succ f =>
      have hge : ROW_INTERVAL ≤ ((B s).length : Int) := by
        have := hfull 0 (Nat.succ_pos j)
        rwa [Nat.add_zero] at this
      simp only [fetchLoop, hB s (pageReqAt ql offset props),
        if_neg (by omega : ¬ (((B s).length : Int) < ROW_INTERVAL)),
        List.nil_append]
      rw [fetchLoop_frame]
      obtain ⟨R', h1, h2, h3⟩ := ih (s + 1) f (offset + ROW_INTERVAL)
        (pagedProps ql offset props)
        (fun i hi => by
          have := hfull (i + 1) (by omega)
          rwa [show s + (i + 1) = s + 1 + i by omega] at this)
        (by rwa [show s + (j + 1) = s + 1 + j by omega] at hshort)
        (by omega)
      rw [h1]
      have hrows : B s ++ ((List.range (j + 1)).map (fun i => B (s + 1 + i))).flatten =
          ((List.range (j + 1 + 1)).map (fun i => B (s + i))).flatten := by
        rw [range_succ_map_shift (fun i => B (s + i)) (j + 1), Nat.add_zero,
          List.flatten_cons]
        congr 1
        rw [show (fun i => B (s + (i + 1))) = (fun i => B (s + 1 + i)) from
          funext fun i => congrArg B (by omega)]
      have hoffs : (pageReqAt ql offset props).offsetReq ::
          (List.range (j + 1)).map
            (fun i : Nat => offset + ROW_INTERVAL + ROW_INTERVAL * (i : Int)) =
          (List.range (j + 1 + 1)).map
            (fun i : Nat => offset + ROW_INTERVAL * (i : Int)) := by
        rw [range_succ_map_shift (fun i : Nat => offset + ROW_INTERVAL * (i : Int)) (j + 1)]
        refine congrArg₂ List.cons (by simp [pageReqAt]) ?_
        rw [show (fun i : Nat => offset + ROW_INTERVAL * ((i + 1 : Nat) : Int)) =
          (fun i : Nat => offset + ROW_INTERVAL + ROW_INTERVAL * (i : Int)) from
          funext fun i => by push_cast; ring]
      have hlims : (pageReqAt ql offset props).limitReq ::
          (List.range (j + 1)).map
            (fun i : Nat => pageLimit ql (offset + ROW_INTERVAL + ROW_INTERVAL * (i : Int))) =
          (List.range (j + 1 + 1)).map
            (fun i : Nat => pageLimit ql (offset + ROW_INTERVAL * (i : Int))) := by
        rw [range_succ_map_shift
          (fun i : Nat => pageLimit ql (offset + ROW_INTERVAL * (i : Int))) (j + 1)]
        refine congrArg₂ List.cons (by simp [pageReqAt]) ?_
        rw [show (fun i : Nat => pageLimit ql (offset + ROW_INTERVAL * ((i + 1 : Nat) : Int))) =
          (fun i : Nat => pageLimit ql (offset + ROW_INTERVAL + ROW_INTERVAL * (i : Int))) from
          funext fun i => congrArg (pageLimit ql) (by push_cast; ring)]
      refine ⟨pageReqAt ql offset props :: R', ?_, ?_, ?_⟩
      · simp only [FetchOut.frame, List.singleton_append]
        exact congrArg (FetchOut.success (pageReqAt ql offset props :: R')) hrows
      · simp only [List.map_cons, h2]
        exact hoffs
      · simp only [List.map_cons, h3]
        exact hlims

/-- Page-count bound under a total limit: against an executor returning at
most the requested number of rows per page, the loop starting at `offset`
with `offset ≤ n` issues at most `(n - offset).toNat / 500 + 1` requests
before stopping (for any amount of fuel). -/
theorem fetchLoop_limit_bound (exec : Executor Row) (n : Int) (hn : 0 < n)
    (hexec : ∀ k req rows, exec k req = .ok rows → rows.length ≤ req.limitReq.toNat) :
    ∀ (fuel k : Nat) (offset : Int) (props : QDict), offset ≤ n →
    ((fetchLoop exec (some n) fuel k offset props [] []).reqs).length ≤
      (n - offset).toNat / 500 + 1 := by
  intro fuel
  induction fuel with
  | zero => intro k off props hoff; simp [fetchLoop, FetchOut.reqs]
  | succ fuel ih =>
    intro k off props hoff
    cases hx : exec k (pageReqAt (some n) off props) with
    | error e =>
      simp only [fetchLoop, hx, FetchOut.reqs, List.nil_append, List.length_cons,
        List.length_nil]
      omega
    | ok chunk =>
      by_cases hc : (chunk.length : Int) < ROW_INTERVAL
      · simp only [fetchLoop, hx, if_pos hc, FetchOut.reqs, List.nil_append,
          List.length_cons, List.length_nil]
        omega
      · simp only [fetchLoop, hx, if_neg hc, List.nil_append]
        rw [fetchLoop_frame, frame_reqs]
        have hlen : chunk.length ≤ (pageReqAt (some n) off props).limitReq.toNat :=
          hexec _ _ _ hx
        have hlim : (pageReqAt (some n) off props).limitReq = pageLimit (some n) off :=
          rfl
        rw [hlim] at hlen
        have h500 : 500 ≤ chunk.length := by
          simp only [ROW_INTERVAL] at hc
          omega
        have hoff' : off + 500 ≤ n := by
          simp only [pageLimit] at hlen
          by_cases hcond : n ≠ 0 ∧ off + ROW_INTERVAL ≥ n
          · rw [if_pos hcond] at hlen
            omega
          · have : ¬ (off + ROW_INTERVAL ≥ n) := fun h => hcond ⟨by omega, h⟩
            simp only [ROW_INTERVAL] at this
            omega
        have hrec := ih (k + 1) (off + ROW_INTERVAL) (pagedProps (some n) off props)
          (by simp only [ROW_INTERVAL]; omega)
        simp only [List.singleton_append, List.length_cons]
        simp only [ROW_INTERVAL] at hrec ⊢
        omega

/-- Exact page count for a divisible total limit against an executor whose
pages are always full (exactly the requested number of rows): starting at
`offset = n - 500 * m`, the loop issues exactly `m + 1` further requests,
the first `m` with requested limit `500` and the final one with requested
limit `0`, and succeeds. -/
theorem fetchLoop_limit_exact (exec : Executor Row) (n : Int) (hn : 0 < n)
    (hfull : ∀ k req, ∃ rows, exec k req = .ok rows ∧
      rows.length = req.limitReq.toNat) :
    ∀ (m fuel k : Nat) (offset : Int) (props : QDict),
    offset = n - 500 * m → m < fuel →
    ∃ R W, fetchLoop exec (some n) fuel k offset props [] [] = .success R W ∧
      R.map (fun r => r.limitReq) =
        List.replicate m (500 : Int) ++ [(0 : Int)] := by
  intro m
  induction m with
  | zero =>
    intro fuel k off props hoffeq hfuel
    cases fuel with
    | zero => omega
    | succ f =>
      obtain ⟨rows, hx, hlen⟩ := hfull k (pageReqAt (some n) off props)
      have hoff : off = n := by push_cast at hoffeq; omega
      have hpl : pageLimit (some n) off = 0 := by
        simp only [pageLimit]
        rw [if_pos ⟨by omega, by simp only [ROW_INTERVAL]; omega⟩]
        omega
      have hlen0 : rows.length = 0 := by
        rw [hlen, show (pageReqAt (some n) off props).limitReq =
          pageLimit (some n) off from rfl, hpl]
        rfl
      simp only [fetchLoop, hx]
      rw [if_pos (by rw [hlen0]; simp only [ROW_INTERVAL]; omega)]
      refine ⟨[pageReqAt (some n) off props], [] ++ rows, rfl, ?_⟩
      simp [pageReqAt, hpl]
  | succ m ihm =>
    intro fuel k off props hoffeq hfuel
    cases fuel with
    | zero => omega
    | succ f =>
      obtain ⟨rows, hx, hlen⟩ := hfull k (pageReqAt (some n) off props)
      have hpl : pageLimit (some n) off = 500 := by
        simp only [pageLimit]
        by_cases hcond : n ≠ 0 ∧ off + ROW_INTERVAL ≥ n
        · rw [if_pos hcond]
          have h2 := hcond.2
          simp only [ROW_INTERVAL] at h2
          push_cast at hoffeq
          omega
        · rw [if_neg hcond]
          simp only [ROW_INTERVAL]
      have hlen500 : rows.length = 500 := by
        rw [hlen, show (pageReqAt (some n) off props).limitReq =
          pageLimit (some n) off from rfl, hpl]
        rfl
      simp only [fetchLoop, hx]
      rw [if_neg (by rw [hlen500]; simp only [ROW_INTERVAL]; omega)]
      rw [List.nil_append, fetchLoop_frame]
      obtain ⟨R', W', h1, h2⟩ := ihm f (k + 1) (off + ROW_INTERVAL)
        (pagedProps (some n) off props)
        (by push_cast at hoffeq ⊢; simp only [ROW_INTERVAL]; omega)
        (by omega)
      rw [h1]
      refine ⟨pageReqAt (some n) off props :: R', rows ++ W', ?_, ?_⟩
      · simp [FetchOut.frame]
      · simp only [List.map_cons, h2, List.replicate_succ]
        rw [show (pageReqAt (some n) off props).limitReq =
          pageLimit (some n) off from rfl, hpl]
        rfl

/-! ### Lemmas about deduplication by id -/

theorem mem_ids_dropDup (l : List (IgdbRecord α)) : ∀ (seen : List Nat) (x : Nat),
    x ∈ (dropDuplicatesById seen l).map IgdbRecord.id ↔
      x ∈ l.map IgdbRecord.id ∧ x ∉ seen := by
  induction l with
  | nil => intro seen x; simp [dropDuplicatesById]
  | cons r rs ih =>
    intro seen x
    by_cases h : r.id ∈ seen
    · simp only [dropDuplicatesById, if_pos h, ih, List.map_cons, List.mem_cons]
      constructor
      · exact fun ⟨h1, h2⟩ => ⟨Or.inr h1, h2⟩
      · rintro ⟨h1 | h1, h2⟩
        · exact absurd (h1 ▸ h) h2
        · exact ⟨h1, h2⟩
    · simp only [dropDuplicatesById, if_neg h, List.map_cons, List.mem_cons, ih,
        List.mem_cons, not_or]
      constructor
      · rintro (h1 | ⟨h1, h2, h3⟩)
        · exact ⟨Or.inl h1, h1 ▸ h⟩
        · exact ⟨Or.inr h1, h3⟩
      · rintro ⟨h1 | h1, h2⟩
        · exact Or.inl h1
        · by_cases hx : x = r.id
          · exact Or.inl hx
          · exact Or.inr ⟨h1, hx, h2⟩

theorem dropDup_idem (l : List (IgdbRecord α)) : ∀ seen : List Nat,
    dropDuplicatesById seen (dropDuplicatesById seen l) =
      dropDuplicatesById seen l := by
  induction l with
  | nil => intro seen; rfl
  | cons r rs ih =>
    intro seen
    by_cases h : r.id ∈ seen
    · simp only [dropDuplicatesById, if_pos h]; exact ih seen
    · have h1 : dropDuplicatesById seen (r :: rs) =
          r :: dropDuplicatesById (r.id :: seen) rs := by
        simp only [dropDuplicatesById, if_neg h]
      rw [h1]
      simp only [dropDuplicatesById, if_neg h]
      exact congrArg (List.cons r) (ih (r.id :: seen))

theorem dropDup_nil_of_subset (m : List (IgdbRecord α)) : ∀ seen : List Nat,
    (∀ x ∈ m.map IgdbRecord.id, x ∈ seen) → dropDuplicatesById seen m = [] := by
  induction m with
  | nil => intro seen _; rfl
  | cons r rs ih =>
    intro seen h
    have hr : r.id ∈ seen := h r.id (by simp)
    simp only [dropDuplicatesById, if_pos hr]
    exact ih seen fun x hx => h x (by simp [hx])

theorem dropDup_append_absorb (l : List (IgdbRecord α)) : ∀ (seen : List Nat)
    (m : List (IgdbRecord α)),
    (∀ x ∈ m.map IgdbRecord.id, x ∈ seen ∨ x ∈ l.map IgdbRecord.id) →
    dropDuplicatesById seen (l ++ m) = dropDuplicatesById seen l := by
  induction l with
  | nil =>
    intro seen m h
    simp only [List.nil_append, dropDuplicatesById]
    exact dropDup_nil_of_subset m seen fun x hx => (h x hx).elim id (by simp)
  | cons r rs ih =>
    intro seen m h
    by_cases hr : r.id ∈ seen
    · simp only [List.cons_append, dropDuplicatesById, if_pos hr]
      refine ih seen m fun x hx => ?_
      rcases h x hx with h1 | h1
      · exact Or.inl h1
      · simp only [List.map_cons, List.mem_cons] at h1
        rcases h1 with h1 | h1
        · exact Or.inl (h1 ▸ hr)
        · exact Or.inr h1
    · simp only [List.cons_append, dropDuplicatesById, if_neg hr]
      congr 1
      refine ih (r.id :: seen) m fun x hx => ?_
      rcases h x hx with h1 | h1
      · exact Or.inl (List.mem_cons_of_mem _ h1)
      · simp only [List.map_cons, List.mem_cons] at h1
        rcases h1 with h1 | h1
        · exact Or.inl (h1 ▸ List.mem_cons_self _ _)
        · exact Or.inr h1

/-- C9: merging a new batch into an existing record set with deduplication
by `id` and then merging the same batch again yields the same record set as
merging it once (here proved as equality of the resulting record lists,
which is stronger than equality as id-keyed sets): the deduplicating append
of `save_to_json(append=True, exclude_duplicates=True)` is idempotent in the
new batch. -/
theorem c9_dedup_merge_idempotent {α : Type} (E N : List (IgdbRecord α)) :
    mergeDedupById (mergeDedupById E N) N = mergeDedupById E N := by
  unfold mergeDedupById
  rw [dropDup_append_absorb (dropDuplicatesById [] (E ++ N)) [] N ?_]
  · exact dropDup_idem (E ++ N) []
  · intro x hx
    refine Or.inr ?_
    rw [mem_ids_dropDup]
    refine ⟨?_, by simp⟩
    simp only [List.map_append, List.mem_append]
    exact Or.inr hx

/-! ### Sanity checks on concrete inputs -/

example : parseQuery ("fields name; limit 10;".toList) =
    .ok [("fields".toList, "name".toList), (limitKw, "10".toList)] := by decide

example : parseQuery ("fields Name;".toList) =
    .ok [("fields".toList, "name".toList)] := by decide

example : parseQuery ("fields name".toList) = .ok [] := by decide

example : parseQuery ("limit;".toList) = .error QueryError.malformedQuery := by
  decide

example : pyInt ("500".toList) = some 500 := by decide

example : queryLimitOf [(limitKw, "650".toList)] = .ok (some 650) := by decide

example : pageLimit (some 650) 500 = 150 := by decide

example :
    serializeDict [("fields".toList, "name".toList), (limitKw, "10".toList)] =
      "fields name; limit 10;".toList := by decide

/-! ### Claim theorems -/

/-- C5: for every parsed query (and hence every executor), every page request
issued by the pagination driver has a requested limit at most `PAGE_SIZE`:
the requested limit is `PAGE_SIZE`, or `total_limit - offset` when the total
limit is truthy and `offset + PAGE_SIZE >= total_limit`, and in either case
it never exceeds `PAGE_SIZE`. -/
theorem c5_requested_limit_le_page_size (exec : Executor Row) (fuel : Nat)
    (props : QDict) (ql : Option Int) (hql : queryLimitOf props = .ok ql)
    (out : FetchOut Row) (hout : fetchFromProps exec fuel props = .ok out)
    (i : Nat) (r : PageReq) (hr : (out.reqs)[i]? = some r) :
    r.limitReq ≤ ROW_INTERVAL ∧
      (r.limitReq = ROW_INTERVAL ∨
        ∃ l, ql = some l ∧ l ≠ 0 ∧ l ≤ r.offsetReq + ROW_INTERVAL ∧
          r.limitReq = l - r.offsetReq) := by
  simp only [fetchFromProps, hql, Except.ok.injEq] at hout
  subst hout
  obtain ⟨hoff, hlim⟩ := fetchLoop_req_spec exec ql fuel 0 0 props i r hr
  rw [Int.zero_add] at hoff hlim
  rw [hlim, hoff]
  cases ql with
  | none => exact ⟨le_refl _, Or.inl rfl⟩
  | some l =>
    simp only [pageLimit]
    by_cases hc : l ≠ 0 ∧ ROW_INTERVAL * (i : Int) + ROW_INTERVAL ≥ l
    · rw [if_pos hc]
      exact ⟨by omega, Or.inr ⟨l, rfl, hc.1, by omega, rfl⟩⟩
    · rw [if_neg hc]
      exact ⟨le_refl _, Or.inl rfl⟩

/-- Witness for C5, on the query `fields name; limit 650;` and an executor
returning no rows: the single issued request has limit `500 ≤ 500`. -/
theorem c5_witness :
    queryLimitOf limit650Props = .ok (some 650) ∧
    fetchFromProps emptyExec 3 limit650Props =
      .ok (.success [pageReqAt (some 650) 0 limit650Props] []) ∧
    ((FetchOut.success [pageReqAt (some 650) 0 limit650Props]
        ([] : List Nat)).reqs)[0]? = some (pageReqAt (some 650) 0 limit650Props) ∧
    ((pageReqAt (some 650) 0 limit650Props).limitReq ≤ ROW_INTERVAL ∧
      ((pageReqAt (some 650) 0 limit650Props).limitReq = ROW_INTERVAL ∨
        ∃ l, (some (650 : Int)) = some l ∧ l ≠ 0 ∧
          l ≤ (pageReqAt (some 650) 0 limit650Props).offsetReq + ROW_INTERVAL ∧
          (pageReqAt (some 650) 0 limit650Props).limitReq =
            l - (pageReqAt (some 650) 0 limit650Props).offsetReq)) :=
  ⟨by decide, by decide, by decide,
    c5_requested_limit_le_page_size emptyExec 3 limit650Props (some 650)
      (by decide)
      (FetchOut.success [pageReqAt (some 650) 0 limit650Props] ([] : List Nat))
      (by decide) 0 (pageReqAt (some 650) 0 limit650Props) (by decide)⟩

/-- C2: whenever the executor raises an error on some page of a fetch, the
whole fetch fails: the caller receives `None` (so the rows accumulated from
the earlier successful pages are discarded rather than returned), the error
itself is what terminates the loop (`execError` outcome), and no request is
ever reissued (all issued requests target pairwise distinct offsets, so no
retry is attempted). -/
theorem c2_executor_error_aborts_fetch (exec : Executor Row) (fuel : Nat)
    (props : QDict) (reqs : List PageReq)
    (hout : fetchFromProps exec fuel props = .ok (.execError reqs))
    (_hprev : 2 ≤ reqs.length) :
    apiFetchProps exec fuel props = none ∧
      ∀ (i j : Nat) (ri rj : PageReq), reqs[i]? = some ri → reqs[j]? = some rj →
        i ≠ j → ri.offsetReq ≠ rj.offsetReq := by
  constructor
  · simp [apiFetchProps, hout]
  · intro i j ri rj hi hj hij
    cases hq : queryLimitOf props with
    | error e => simp [fetchFromProps, hq] at hout
    | ok ql =>
      simp only [fetchFromProps, hq, Except.ok.injEq] at hout
      have hreqs : (fetchLoop exec ql fuel 0 0 props [] []).reqs = reqs := by
        rw [hout]; rfl
      rw [← hreqs] at hi hj
      have h1 := (fetchLoop_req_spec exec ql fuel 0 0 props i ri hi).1
      have h2 := (fetchLoop_req_spec exec ql fuel 0 0 props j rj hj).1
      rw [h1, h2]
      intro hcon
      have : (i : Int) = (j : Int) := by
        unfold ROW_INTERVAL at hcon
        omega
      exact hij (by exact_mod_cast this)

/-- Witness for C2: with no total limit, an executor succeeding with a full
page on call 0 and failing on call 1 produces an `execError` after two
requests, and the caller receives `None`. -/
theorem c2_witness :
    fetchFromProps failSecondExec 5 noLimitProps =
      .ok (.execError [pageReqAt none 0 noLimitProps,
        pageReqAt none 500 (pagedProps none 0 noLimitProps)]) ∧
    2 ≤ ([pageReqAt none 0 noLimitProps,
        pageReqAt none 500 (pagedProps none 0 noLimitProps)] : List PageReq).length ∧
    (apiFetchProps failSecondExec 5 noLimitProps = none ∧
      ∀ (i j : Nat) (ri rj : PageReq),
        ([pageReqAt none 0 noLimitProps,
          pageReqAt none 500 (pagedProps none 0 noLimitProps)] : List PageReq)[i]? =
          some ri →
        ([pageReqAt none 0 noLimitProps,
          pageReqAt none 500 (pagedProps none 0 noLimitProps)] : List PageReq)[j]? =
          some rj →
        i ≠ j → ri.offsetReq ≠ rj.offsetReq) :=
  ⟨by decide, by decide,
    c2_executor_error_aborts_fetch failSecondExec 5 noLimitProps
      [pageReqAt none 0 noLimitProps,
        pageReqAt none 500 (pagedProps none 0 noLimitProps)]
      (by decide) (by decide)⟩

/-- C3: against an executor whose responses never exceed `PAGE_SIZE` rows
and whose `j`-th response is the first one strictly shorter than
`PAGE_SIZE`, the pagination loop terminates, and it terminates exactly at
that first short batch — `j + 1` pages are issued — for every parsed query,
in particular even when a total-limit budget remains unconsumed. -/
theorem c3_terminates_at_first_short_batch (exec : Executor Row)
    (B : Nat → List Row) (hB : ∀ k req, exec k req = .ok (B k))
    (hle : ∀ k, (B k).length ≤ 500) (j : Nat) (hshort : (B j).length < 500)
    (hmin : ∀ i, i < j → ¬ (B i).length < 500) (props : QDict)
    (ql : Option Int) (hql : queryLimitOf props = .ok ql) (fuel : Nat)
    (hfuel : j < fuel) :
    ∃ R W, fetchFromProps exec fuel props = .ok (.success R W) ∧
      R.length = j + 1 := by
  have hle' := hle
  obtain ⟨R, h1, h2, h3⟩ := fetchLoop_all_ok exec ql B hB j 0 fuel 0 props
    (fun i hi => by
      have h := hmin i hi
      simp only [Nat.zero_add, ROW_INTERVAL]
      omega)
    (by simp only [Nat.zero_add, ROW_INTERVAL]; omega)
    hfuel
  refine ⟨R, ((List.range (j + 1)).map (fun i => B (0 + i))).flatten, ?_, ?_⟩
  · simp only [fetchFromProps, hql]
    rw [h1]
  · have := congrArg List.length h2
    simpa using this

/-- Witness for C3: responses of sizes `[500, 100, ...]` under total limit
5000 — the loop stops after page 2, the first short page, with 4400 rows of
budget left. -/
theorem c3_witness :
    (∀ (k : Nat) (req : PageReq), shortExec k req = .ok (shortBatch k)) ∧
    (∀ k, (shortBatch k).length ≤ 500) ∧
    (shortBatch 1).length < 500 ∧
    (∀ i, i < 1 → ¬ (shortBatch i).length < 500) ∧
    queryLimitOf limit5000Props = .ok (some 5000) ∧
    (1 : Nat) < 3 ∧
    (∃ R W, fetchFromProps shortExec 3 limit5000Props = .ok (.success R W) ∧
      R.length = 1 + 1) :=
  ⟨fun _ _ => rfl,
   fun k => by simp only [shortBatch, List.length_range]; split <;> omega,
   by decide,
   fun i hi => by
     have : i = 0 := by omega
     subst this
     decide,
   by decide, by decide,
   c3_terminates_at_first_short_batch shortExec shortBatch (fun _ _ => rfl)
     (fun k => by simp only [shortBatch, List.length_range]; split <;> omega)
     1 (by decide)
     (fun i hi => by
       have : i = 0 := by omega
       subst this
       decide)
     limit5000Props (some 5000) (by decide) 3 (by decide)⟩

/-- C4: with no total limit, every issued page request carries requested
limit `PAGE_SIZE` and offset `PAGE_SIZE * i` for the `i`-th page (0-based:
the `k`-th page has offset `(k-1) * PAGE_SIZE`); in particular, on mocked
responses of sizes `[500, 500, 500, 300]` the driver issues exactly 4
requests with offsets `[0, 500, 1000, 1500]` and limits all `500`, returns
the 1800 rows as the ordered concatenation of the four batches, and
terminates because the last page was short. -/
theorem c4_no_limit_pagination (exec : Executor Row) (fuel : Nat)
    (props : QDict) (hnl : queryLimitOf props = .ok none)
    (out : FetchOut Row) (hout : fetchFromProps exec fuel props = .ok out)
    (i : Nat) (r : PageReq) (hr : (out.reqs)[i]? = some r) :
    (r.offsetReq = ROW_INTERVAL * i ∧ r.limitReq = ROW_INTERVAL) ∧
      ∃ R, fetchFromProps demoExec 10 noLimitProps =
          .ok (.success R
            (demoBatch 0 ++ (demoBatch 1 ++ (demoBatch 2 ++ demoBatch 3)))) ∧
        R.map (fun p => p.offsetReq) = [0, 500, 1000, 1500] ∧
        R.map (fun p => p.limitReq) = [500, 500, 500, 500] ∧
        (demoBatch 0 ++ (demoBatch 1 ++ (demoBatch 2 ++ demoBatch 3))).length = 1800 ∧
        (demoBatch 3).length < 500 := by
  have hlen : ∀ k, (demoBatch k).length = if k < 3 then 500 else 300 := by
    intro k; simp [demoBatch]
  constructor
  · simp only [fetchFromProps, hnl, Except.ok.injEq] at hout
    subst hout
    obtain ⟨hoff, hlim⟩ := fetchLoop_req_spec exec none fuel 0 0 props i r hr
    rw [Int.zero_add] at hoff hlim
    exact ⟨hoff, hlim⟩
  · obtain ⟨R, h1, h2, h3⟩ := fetchLoop_all_ok demoExec none demoBatch
      (fun _ _ => rfl) 3 0 10 0 noLimitProps
      (fun i hi => by
        simp only [Nat.zero_add, hlen, if_pos hi, ROW_INTERVAL]
        omega)
      (by simp only [Nat.zero_add, hlen]; norm_num [ROW_INTERVAL])
      (by omega)
    refine ⟨R, ?_, ?_, ?_, ?_, ?_⟩
    · simp only [fetchFromProps, show queryLimitOf noLimitProps = .ok none by decide]
      rw [h1]
      have hmap : (List.range (3 + 1)).map (fun i => demoBatch (0 + i)) =
          [demoBatch 0, demoBatch 1, demoBatch 2, demoBatch 3] := by
        rw [show List.range (3 + 1) = [0, 1, 2, 3] from rfl]
        rfl
      rw [hmap]
      simp [List.flatten_cons]
    · rw [h2]; decide
    · rw [h3]; decide
    · simp only [List.length_append, hlen]
      norm_num
    · simp only [hlen]
      norm_num

/-- Witness for C4: an executor returning no rows issues a single request
with offset 0 and limit 500 on a query with no `limit` clause. -/
theorem c4_witness :
    queryLimitOf noLimitProps = .ok none ∧
    fetchFromProps emptyExec 2 noLimitProps =
      .ok (.success [pageReqAt none 0 noLimitProps] ([] : List Nat)) ∧
    ((FetchOut.success [pageReqAt none 0 noLimitProps] ([] : List Nat)).reqs)[0]? =
      some (pageReqAt none 0 noLimitProps) ∧
    (((pageReqAt none 0 noLimitProps).offsetReq = ROW_INTERVAL * 0 ∧
        (pageReqAt none 0 noLimitProps).limitReq = ROW_INTERVAL) ∧
      ∃ R, fetchFromProps demoExec 10 noLimitProps =
          .ok (.success R
            (demoBatch 0 ++ (demoBatch 1 ++ (demoBatch 2 ++ demoBatch 3)))) ∧
        R.map (fun p => p.offsetReq) = [0, 500, 1000, 1500] ∧
        R.map (fun p => p.limitReq) = [500, 500, 500, 500] ∧
        (demoBatch 0 ++ (demoBatch 1 ++ (demoBatch 2 ++ demoBatch 3))).length = 1800 ∧
        (demoBatch 3).length < 500) :=
  ⟨by decide, by decide, by decide,
    c4_no_limit_pagination emptyExec 2 noLimitProps (by decide)
      (FetchOut.success [pageReqAt none 0 noLimitProps] ([] : List Nat))
      (by decide) 0 (pageReqAt none 0 noLimitProps) (by decide)⟩

/-- `fullExec` returns at most the requested number of rows per page. -/
theorem fullExec_at_most (k : Nat) (req : PageReq) (rows : List Nat)
    (h : fullExec k req = .ok rows) : rows.length ≤ req.limitReq.toNat := by
  simp only [fullExec, Except.ok.injEq] at h
  subst h
  simp

/-- `fullExec` returns exactly the requested number of rows per page. -/
theorem fullExec_full (k : Nat) (req : PageReq) :
    ∃ rows, fullExec k req = .ok rows ∧ rows.length = req.limitReq.toNat :=
  ⟨List.range req.limitReq.toNat, rfl, List.length_range _⟩

/-- C1 (amended): for a parsed query with explicit total limit `L > 0` and
every executor returning at most the requested number of rows per page, the
pagination driver issues at most `L / PAGE_SIZE + 1` page requests — which
equals `ceil(L / PAGE_SIZE)` except when `PAGE_SIZE` divides `L`; and when
`PAGE_SIZE ∣ L` and every page returns a full batch, it issues exactly
`L / PAGE_SIZE + 1` requests, the first `L / PAGE_SIZE` of them with
requested limit `PAGE_SIZE` and a final extra request with requested limit
`0` (whose empty response is the termination signal). -/
theorem c1_total_limit_page_count (exec : Executor Row) (fuel : Nat)
    (props : QDict) (n : Nat) (hn : 0 < n)
    (hql : queryLimitOf props = .ok (some (n : Int)))
    (hexec : ∀ k req rows, exec k req = .ok rows → rows.length ≤ req.limitReq.toNat)
    (out : FetchOut Row) (hout : fetchFromProps exec fuel props = .ok out) :
    out.reqs.length ≤ n / 500 + 1 ∧
      (500 ∣ n →
        (∀ k req, ∃ rows, exec k req = .ok rows ∧ rows.length = req.limitReq.toNat) →
        n / 500 < fuel →
        ∃ R W, out = .success R W ∧
          R.map (fun r => r.limitReq) =
            List.replicate (n / 500) (500 : Int) ++ [(0 : Int)] ∧
          R.length = n / 500 + 1) := by
  simp only [fetchFromProps, hql, Except.ok.injEq] at hout
  subst hout
  constructor
  · have hb := fetchLoop_limit_bound exec (n : Int) (by exact_mod_cast hn) hexec
      fuel 0 0 props (by exact_mod_cast Nat.zero_le n)
    omega
  · intro hdvd hfull hfuel
    obtain ⟨m, hm⟩ := hdvd
    have hmn : n / 500 = m := by omega
    obtain ⟨R, W, h1, h2⟩ := fetchLoop_limit_exact exec (n : Int)
      (by exact_mod_cast hn) hfull m fuel 0 0 props
      (by omega) (by omega)
    refine ⟨R, W, h1, ?_, ?_⟩
    · rw [h2, hmn]
    · have hl := congrArg List.length h2
      simp only [List.length_map, List.length_append, List.length_replicate,
        List.length_cons, List.length_nil] at hl
      omega

/-- Counterexample to C1 as stated: with total limit `L = 500` (so
`ceil(L / PAGE_SIZE) = 1`) and an executor returning exactly — hence at
most — the requested number of rows per page, the driver issues 2 page
requests, the second with requested limit 0, refuting both the
`ceil(L / PAGE_SIZE)` bound and the `exactly L / PAGE_SIZE requests, each
with limit PAGE_SIZE` clause of the claim. -/
theorem c1_counterexample :
    (∀ (k : Nat) (req : PageReq) (rows : List Nat),
        fullExec k req = .ok rows → rows.length ≤ req.limitReq.toNat) ∧
    (fetchFromProps fullExec 5 limit500Props).map
        (fun o => o.reqs.map (fun r => (r.limitReq, r.offsetReq))) =
      .ok [(500, 0), (0, 500)] ∧
    (500 + 500 - 1) / 500 = 1 :=
  ⟨fullExec_at_most, by decide, by decide⟩

/-- Witness for the amended C1 at `L = 500`, `fuel = 5`, against the
full-page executor. -/
theorem c1_witness :
    (0 : Nat) < 500 ∧
    queryLimitOf limit500Props = .ok (some ((500 : Nat) : Int)) ∧
    fetchFromProps fullExec 5 limit500Props = .ok c1out ∧
    (c1out.reqs.length ≤ 500 / 500 + 1 ∧
      (500 ∣ 500 →
        (∀ k req, ∃ rows, fullExec k req = .ok rows ∧
          rows.length = req.limitReq.toNat) →
        500 / 500 < 5 →
        ∃ R W, c1out = FetchOut.success R W ∧
          R.map (fun r => r.limitReq) =
            List.replicate (500 / 500) (500 : Int) ++ [(0 : Int)] ∧
          R.length = 500 / 500 + 1)) :=
  ⟨by decide, by decide, by decide,
    c1_total_limit_page_count fullExec 5 limit500Props 500 (by decide)
      (by decide) fullExec_at_most c1out (by decide)⟩

/-- C6 (amended): for every well-formed query string built from
semicolon-terminated clauses (each a nonempty keyword without whitespace or
`';'` followed by a nonempty value without `';'` or surrounding whitespace),
the parser returns the mapping from case-folded keyword to *case-folded*
value (the whole query is lowercased before splitting, so values do not
keep their original case), built by in-order dict insertion — hence
preserving the first-seen order of the keywords. -/
theorem c6_parser_case_folds_values (cs : List (Chars × Chars))
    (h : ∀ p ∈ cs, rawCleanPair p) :
    parseQuery ((cs.map clauseChars).flatten) =
      .ok (buildDict (cs.map (fun p => (pyLower p.1, pyLower p.2)))) := by
  have hlow : pyLower ((cs.map clauseChars).flatten) =
      (((cs.map (fun p => (pyLower p.1, pyLower p.2))).map clauseChars)).flatten := by
    simp only [pyLower, List.map_flatten, List.map_map]
    congr 1
    refine List.map_congr_left fun p _ => ?_
    exact pyLower_clauseChars p
  have hsemi : ∀ p ∈ cs.map (fun p => (pyLower p.1, pyLower p.2)),
      ';' ∉ p.1 ∧ ';' ∉ p.2 := by
    intro p hp
    obtain ⟨q, hq, rfl⟩ := List.mem_map.mp hp
    obtain ⟨_, hk, _, hv, _, _⟩ := h q hq
    constructor
    · intro hm
      obtain ⟨c0, hc0, he⟩ := List.mem_map.mp hm
      exact (hk c0 hc0).2 (eq_semi_of_toLower_eq_semi he)
    · intro hm
      obtain ⟨c0, hc0, he⟩ := List.mem_map.mp hm
      exact (hv c0 hc0) (eq_semi_of_toLower_eq_semi he)
  show (pySegs _).foldl parseStep (.ok []) = _
  unfold pySegs
  rw [hlow, rawSegs_flatten_clauses _ hsemi]
  rw [foldl_parseStep_of_parse clauseSeg _ ?_ []]
  · rfl
  · intro p hp
    obtain ⟨q, hq, rfl⟩ := List.mem_map.mp hp
    obtain ⟨h1, h2, h3, h4, h5, h6⟩ := h q hq
    refine parseClause_clause (pyLower q.1) (pyLower q.2) ?_ ?_ ?_ ?_ ?_
    · simp [pyLower, h1]
    · intro c hc
      obtain ⟨c0, hc0, rfl⟩ := List.mem_map.mp hc
      rw [isPySpace_toLower]
      exact (h2 c0 hc0).1
    · simp [pyLower, h3]
    · refine headNotSpace_of _ fun c hc => ?_
      rw [show pyLower q.2 = List.map Char.toLower q.2 from rfl,
        List.head?_map] at hc
      cases hhd : q.2.head? with
      | none => rw [hhd] at hc; cases hc
      | some c0 =>
        rw [hhd] at hc
        injection hc with hc
        rw [← hc, isPySpace_toLower]
        exact headNotSpace_spec h5 hhd
    · refine lastNotSpace_of _ fun c hc => ?_
      rw [show pyLower q.2 = List.map Char.toLower q.2 from rfl,
        List.getLast?_map] at hc
      cases hgl : q.2.getLast? with
      | none => rw [hgl] at hc; cases hc
      | some c0 =>
        rw [hgl] at hc
        injection hc with hc
        rw [← hc, isPySpace_toLower]
        exact lastNotSpace_spec h6 hgl

/-- Counterexample to C6 as stated: on the query `fields Name;` the parsed
value is `name`, not the original value substring `Name` — the parser
lowercases values, not only keywords. -/
theorem c6_counterexample :
    parseQuery ("fields Name;".toList) =
      .ok [("fields".toList, "name".toList)] ∧
    "name".toList ≠ "Name".toList :=
  ⟨by decide, by decide⟩

/-- Witness for the amended C6 on the single clause `fields Name;`. -/
theorem c6_witness :
    (∀ p ∈ [("fields".toList, "Name".toList)], rawCleanPair p) ∧
    parseQuery (([("fields".toList, "Name".toList)].map clauseChars).flatten) =
      .ok (buildDict ([("fields".toList, "Name".toList)].map
        (fun p => (pyLower p.1, pyLower p.2)))) :=
  ⟨by decide, c6_parser_case_folds_values [("fields".toList, "Name".toList)]
    (by decide)⟩

/-- C7: a query containing a semicolon-terminated clause that consists of a
keyword with no value (its stripped segment is nonempty and has no internal
whitespace) fails to parse with `MalformedQuery` — the `IndexError` from
`sub_seg[1]` — rather than returning a clause mapping, and `api_fetch`
reports the failure to the caller by returning `None`. -/
theorem c7_missing_value_is_malformed (q seg : Chars) (hin : seg ∈ pySegs q)
    (hne : pyStrip seg ≠ []) (hns : ∀ c ∈ pyStrip seg, isPySpace c = false) :
    parseQuery q = .error QueryError.malformedQuery ∧
      ∀ (Row : Type) (exec : Executor Row) (fuel : Nat),
        apiFetch exec fuel q = none := by
  have hpc : parseClause seg = none := parseClause_none_of_single seg hne hns
  have herr : parseQuery q = .error QueryError.malformedQuery :=
    foldl_parseStep_malformed (pySegs q) [] ⟨seg, hin, hpc⟩
  refine ⟨herr, fun Row exec fuel => ?_⟩
  unfold apiFetch
  rw [herr]

/-- Witness for C7 on the query `fields name; limit;`. -/
theorem c7_witness :
    " limit".toList ∈ pySegs ("fields name; limit;".toList) ∧
    pyStrip (" limit".toList) ≠ [] ∧
    (∀ c ∈ pyStrip (" limit".toList), isPySpace c = false) ∧
    (parseQuery ("fields name; limit;".toList) =
        .error QueryError.malformedQuery ∧
      ∀ (Row : Type) (exec : Executor Row) (fuel : Nat),
        apiFetch exec fuel ("fields name; limit;".toList) = none) :=
  ⟨by decide, by decide, by decide,
    c7_missing_value_is_malformed ("fields name; limit;".toList)
      (" limit".toList) (by decide) (by decide) (by decide)⟩

/-- C8: parsing a well-formed query string and reserializing the resulting
clause mapping as space-joined `"<keyword> <value>;"` clauses (with no
limit/offset rewrite) and parsing again yields exactly the same
keyword-value mapping as the first parse. -/
theorem c8_roundtrip (q : Chars) (m : QDict) (h : parseQuery q = .ok m) :
    parseQuery (serializeDict m) = .ok m := by
  obtain ⟨hc, hn⟩ := parseQuery_ok_inv q m h
  exact parseQuery_serializeDict m hc hn

/-- Witness for C8 on the query `fields name; limit 10;`. -/
theorem c8_witness :
    parseQuery ("fields name; limit 10;".toList) =
      .ok [("fields".toList, "name".toList), (limitKw, "10".toList)] ∧
    parseQuery (serializeDict
        [("fields".toList, "name".toList), (limitKw, "10".toList)]) =
      .ok [("fields".toList, "name".toList), (limitKw, "10".toList)] :=
  ⟨by decide, c8_roundtrip ("fields name; limit 10;".toList)
    [("fields".toList, "name".toList), (limitKw, "10".toList)] (by decide)⟩

/-- C10: the parser splits on `';'` and unconditionally drops the last
segment, so for every query string the final clause after the last `';'` is
silently discarded (parsing is unchanged if that trailing text is replaced
by nothing); in particular `fields name` (no trailing semicolon) parses to
the empty mapping, with no error reported. -/
theorem c10_trailing_clause_dropped :
    (∀ (x rest : Chars), ';' ∉ rest →
      parseQuery (x ++ ';' :: rest) = parseQuery (x ++ [';'])) ∧
    parseQuery ("fields name".toList) = .ok [] := by
  constructor
  · intro x rest hr
    show (pySegs (x ++ ';' :: rest)).foldl parseStep (.ok []) =
      (pySegs (x ++ [';'])).foldl parseStep (.ok [])
    unfold pySegs
    rw [pyLower_append, pyLower_semi_cons, pyLower_append,
      show pyLower [';'] = [';'] by simp [pyLower, toLower_semi],
      rawSegs_trailing (pyLower x) (pyLower rest) (semi_not_mem_pyLower rest hr)]
  · decide

/-- Witness for C10: dropping the unterminated clause `fields name` from
`limit 10; fields name` leaves the parse of `limit 10;`. -/
theorem c10_witness :
    (';' ∉ " fields name".toList ∧
      parseQuery ("limit 10".toList ++ ';' :: " fields name".toList) =
        parseQuery ("limit 10".toList ++ [';'])) ∧
    parseQuery ("fields name".toList) = .ok [] :=
  ⟨⟨by decide, c10_trailing_clause_dropped.1 ("limit 10".toList)
    (" fields name".toList) (by decide)⟩,
   c10_trailing_clause_dropped.2⟩

end Igdb
